import Mathlib

/-!
Verification development for the Trace repository: a version-controlled
store of LLM conversation context.  The definitions below are a shallow
embedding of the Python sources under src/src/tract: the context compiler
(engine/compiler.py), the compile-snapshot cache (engine/cache.py), the
sqlite repositories (storage/sqlite.py) and the rebase operation
(operations/rebase.py).  Components whose source files are absent from the
repository snapshot (the commit engine, the DAG utilities, the content and
priority default tables, the ref attach/detach helpers) are modelled from
the specification and marked as such in their doc comments.

Timestamps are modelled as naturals, payloads as already-parsed structured
records (the Python code stores JSON text and parses it on read; the JSON
round-trip itself is not part of any claim), and the token counter as an
abstract function on message lists, exactly as the code treats it (any
callable counting tokens of a structured message list).
-/

/-- LLM message as produced by the compiler (protocols.Message: role,
content, optional name). -/
structure Message where
  role : String
  content : String
  name : Option String := none
deriving DecidableEq, Repr

/-- Annotation priorities (SKIP, NORMAL, IMPORTANT, PINNED). -/
inductive Priority
  | SKIP
  | NORMAL
  | IMPORTANT
  | PINNED
deriving DecidableEq, Repr

/-- Commit operations (APPEND, EDIT). -/
inductive CommitOp
  | APPEND
  | EDIT
deriving DecidableEq, Repr

/-- A generation-config dict, modelled as an association list of strings. -/
abbrev GenConfig := List (String × String)

/-- Parsed blob payload.  The Python compiler reads the blob JSON into an
untyped dict and accesses the keys below; optional fields model the
presence or absence of the corresponding dict key.  `payloadDump` stands
for the pretty-printed JSON of the `payload` key (tool_io / freeform), and
`rawDump` for the JSON serialization of the whole dict (the final
fallback of `_extract_message_text`). -/
structure ContentData where
  contentType : String := "unknown"
  role : Option String := none
  name : Option String := none
  text : Option String := none
  content : Option String := none
  toolName : Option String := none
  direction : Option String := none
  payloadDump : Option String := none
  status : Option String := none
  rawDump : String := ""
deriving DecidableEq, Repr

/-- Blob row: content-addressed payload (storage/schema BlobRow). -/
structure BlobRow where
  content_hash : String
  payload : ContentData
deriving DecidableEq, Repr

/-- Annotation row: append-only priority decision for a target commit.
The `reason` and `retention` columns play no role in any claim and are
omitted. -/
structure AnnotationRow where
  target_hash : String
  priority : Priority
  created_at : Nat
deriving DecidableEq, Repr

/-- Commit row.  `response_to` is the edit target (the compiler source
also reads it under the alias `reply_to`; both name the same column). -/
structure CommitRow where
  commit_hash : String
  tract_id : String := ""
  parent_hash : Option String := none
  content_hash : String
  content_type : String
  operation : CommitOp
  response_to : Option String := none
  message : Option String := none
  token_count : Nat := 0
  generation_config_json : Option GenConfig := none
  created_at : Nat
deriving DecidableEq, Repr

/-- The whole store: the five logical tables plus the ref state.
`parentEdges` is the commit_parents table (second parents of merge
commits), `branches` maps branch names to commit hashes, `currentBranch`
is the CURRENT_BRANCH marker ref, and `clock` drives created_at stamps of
newly created commits. -/
structure Store where
  commits : List CommitRow := []
  blobs : List BlobRow := []
  annotations : List AnnotationRow := []
  parentEdges : List (String × String) := []
  head : Option String := none
  currentBranch : Option String := none
  branches : List (String × String) := []
  clock : Nat := 0
deriving DecidableEq, Repr

/-- Compiled output (protocols.CompiledContext).  `generation_configs`
and `commit_hashes` default to empty exactly as in the dataclass; the
compiler's `compile` does not populate them. -/
structure CompiledContext where
  messages : List Message
  token_count : Nat
  commit_count : Int
  token_source : String
  generation_configs : List GenConfig := []
  commit_hashes : List String := []
deriving DecidableEq, Repr

/-- Cached compile snapshot (protocols.CompileSnapshot). -/
structure CompileSnapshot where
  head_hash : String
  messages : List Message
  commit_count : Int
  token_count : Nat
  token_source : String
  generation_configs : List GenConfig
  commit_hashes : List String
deriving DecidableEq, Repr

/-- Association-list lookup, mirroring Python dict lookup by key. -/
def alookup {α : Type} (m : List (String × α)) (k : String) : Option α :=
  (m.find? (fun p => p.1 == k)).map (·.2)

/-- Association-list update, mirroring Python dict assignment: replace the
value if the key is present, append otherwise. -/
def aset {α : Type} (m : List (String × α)) (k : String) (v : α) :
    List (String × α) :=
  match m with
  | [] => [(k, v)]
  | p :: rest => if p.1 == k then (k, v) :: rest else p :: aset rest k v

/-- SqliteCommitRepository.get: look a commit up by hash. -/
def getCommit (st : Store) (h : String) : Option CommitRow :=
  st.commits.find? (fun c => c.commit_hash == h)

/-- SqliteBlobRepository.get over a blob table. -/
def getBlob (bs : List BlobRow) (h : String) : Option BlobRow :=
  bs.find? (fun b => b.content_hash == h)

/-- SqliteBlobRepository.save_if_absent: store the blob only if its
content_hash is not already present (dedup). -/
def saveIfAbsent (bs : List BlobRow) (b : BlobRow) : List BlobRow :=
  match getBlob bs b.content_hash with
  | some _ => bs
  | none => bs ++ [b]

/-- Number of blob rows carrying a given content hash. -/
def countHash (bs : List BlobRow) (h : String) : Nat :=
  (bs.filter (fun b => b.content_hash == h)).length

/-- Fuel-bounded primary-parent walk.  The Python loop in
SqliteCommitRepository.get_ancestors runs until the parent pointer is null
or dangling; on an acyclic store the chain visits pairwise distinct
commits, so a fuel of one more than the table size never truncates. -/
def ancestorsFuel (st : Store) : Nat → Option String → List CommitRow
  | 0, _ => []
  | _, none => []
  | Nat.succ f, some h =>
    match getCommit st h with
    | none => []
    | some c => c :: ancestorsFuel st f c.parent_hash

/-- SqliteCommitRepository.get_ancestors: commit chain from a hash to the
root, newest first. -/
def getAncestors (st : Store) (h : String) : List CommitRow :=
  ancestorsFuel st (st.commits.length + 1) (some h)

/-- SqliteAnnotationRepository.batch_get_latest restricted to one target:
the annotation with the greatest created_at among those with this target
hash (SQL leaves ties unspecified; the model keeps the first row on a
tie). -/
def latestAnnOf (st : Store) (h : String) : Option AnnotationRow :=
  st.annotations.foldl
    (fun acc a =>
      if a.target_hash == h then
        match acc with
        | none => some a
        | some b => if a.created_at > b.created_at then some a else acc
      else acc)
    none

/-- Modelled from the spec: DEFAULT_TYPE_PRIORITIES (models/annotations.py
is absent from the snapshot).  The spec's content-model table fixes the
instruction default priority at PINNED; all other variants default to
NORMAL, matching the compiler's `.get(content_type, Priority.NORMAL)`
fallback. -/
def defaultTypePriorities (t : String) : Priority :=
  if t == "instruction" then Priority.PINNED else Priority.NORMAL

/-- Modelled from the spec: BUILTIN_TYPE_HINTS default roles
(models/content.py is absent).  The spec's content-model table gives
instruction ↦ system and reasoning/artifact/output/freeform ↦ assistant;
dialogue and tool_io are special-cased before this table is consulted. -/
def builtinDefaultRole (t : String) : Option String :=
  match t with
  | "instruction" => some "system"
  | "reasoning" => some "assistant"
  | "artifact" => some "assistant"
  | "output" => some "assistant"
  | "freeform" => some "assistant"
  | _ => none

/-- DefaultContextCompiler._walk_chain after the repository read: reverse
the newest-first ancestor list to root-first order, apply the up_to
truncation, then the as_of filter. -/
def upToFilter (u : String) : List CommitRow → List CommitRow
  | [] => []
  | c :: cs => if c.commit_hash == u then [c] else c :: upToFilter u cs

/-- The chain walk on an ancestor list (head-first as returned by
get_ancestors). -/
def walkChain (ancs : List CommitRow) (asOf : Option Nat)
    (upTo : Option String) : List CommitRow :=
  let commits := ancs.reverse
  let commits :=
    match upTo with
    | some u => upToFilter u commits
    | none => commits
  match asOf with
  | some t => commits.filter (fun c => c.created_at ≤ t)
  | none => commits

/-- One iteration of the _build_edit_map loop: record an EDIT under its
target when it is inside the as_of boundary and newer than the recorded
one. -/
def editStep (asOf : Option Nat) (m : List (String × CommitRow))
    (c : CommitRow) : List (String × CommitRow) :=
  match c.operation, c.response_to with
  | CommitOp.EDIT, some t =>
    if (match asOf with
        | some cutoff => decide (c.created_at > cutoff)
        | none => false) then m
    else
      match alookup m t with
      | none => aset m t c
      | some e => if c.created_at > e.created_at then aset m t c else m
  | _, _ => m

/-- DefaultContextCompiler._build_edit_map: map from edit target to the
latest (by created_at) EDIT commit targeting it. -/
def buildEditMap (chain : List CommitRow) (asOf : Option Nat) :
    List (String × CommitRow) :=
  chain.foldl (editStep asOf) []

/-- The per-commit effective priority computed by the
_build_priority_map loop body: the latest annotation overall if it is
inside the as_of boundary, the content-type default otherwise. -/
def effPriority (st : Store) (asOf : Option Nat) (c : CommitRow) :
    Priority :=
  let ann :=
    match latestAnnOf st c.commit_hash with
    | some a =>
      match asOf with
      | some t => if a.created_at > t then none else some a
      | none => some a
    | none => none
  match ann with
  | some a => a.priority
  | none => defaultTypePriorities c.content_type

/-- DefaultContextCompiler._build_priority_map: dict from commit hash to
its effective priority. -/
def buildPriorityMap (st : Store) (chain : List CommitRow)
    (asOf : Option Nat) : List (String × Priority) :=
  chain.foldl (fun m c => aset m c.commit_hash (effPriority st asOf c)) []

/-- DefaultContextCompiler._build_effective_commits: drop EDIT commits and
commits whose effective priority is SKIP. -/
def effectiveCommits (chain : List CommitRow)
    (pm : List (String × Priority)) : List CommitRow :=
  chain.filter (fun c =>
    !(c.operation == CommitOp.EDIT) &&
      !(alookup pm c.commit_hash == some Priority.SKIP))

/-- DefaultContextCompiler._map_role: override map, then the dialogue and
tool_io special cases, then builtin hints, then "assistant". -/
def mapRole (ovr : List (String × String)) (ct : String)
    (d : ContentData) : String :=
  match alookup ovr ct with
  | some r => r
  | none =>
    if ct == "dialogue" then d.role.getD "user"
    else if ct == "tool_io" then "tool"
    else
      match builtinDefaultRole ct with
      | some r => r
      | none => "assistant"

/-- DefaultContextCompiler._extract_message_text. -/
def extractText (ct : String) (d : ContentData) : String :=
  if ct == "tool_io" then
    let header := "Tool " ++ d.direction.getD "call" ++ ": "
      ++ d.toolName.getD "unknown"
    let header :=
      match d.status with
      | some s => if s.isEmpty then header else header ++ " (" ++ s ++ ")"
      | none => header
    header ++ "\n" ++ d.payloadDump.getD "\x7b\x7d"
  else if ct == "freeform" then d.payloadDump.getD "\x7b\x7d"
  else
    match d.text with
    | some t => t
    | none =>
      match d.content with
      | some s => s
      | none => d.rawDump

/-- DefaultContextCompiler.build_message_for_commit: load the blob, map
the content type to a role, extract the text; a missing blob becomes a
system message reading "[missing content]". -/
def buildMessageForCommit (ovr : List (String × String)) (st : Store)
    (c : CommitRow) : Message :=
  match getBlob st.blobs c.content_hash with
  | none => { role := "system", content := "[missing content]" }
  | some b =>
    let d := b.payload
    let ct := d.contentType
    { role := mapRole ovr ct d
      content := extractText ct d
      name := if ct == "dialogue" then d.name else none }

/-- The _build_messages loop body: use the substituted edit commit when
the edit map has an entry for this commit, and append the "[edited]"
marker when requested. -/
def renderCommit (ovr : List (String × String)) (st : Store)
    (em : List (String × CommitRow)) (includeEd : Bool) (c : CommitRow) :
    Message :=
  let src := (alookup em c.commit_hash).getD c
  let m := buildMessageForCommit ovr st src
  if includeEd && (alookup em c.commit_hash).isSome then
    { m with content := m.content ++ " [edited]" }
  else m

/-- DefaultContextCompiler._build_messages. -/
def buildMessages (ovr : List (String × String)) (st : Store)
    (em : List (String × CommitRow)) (includeEd : Bool)
    (eff : List CommitRow) : List Message :=
  eff.map (renderCommit ovr st em includeEd)

/-- The _aggregate_messages loop: `cur` is the accumulated message of the
current same-role group. -/
def aggGo (cur : Message) : List Message → List Message
  | [] => [cur]
  | m :: ms =>
    if m.role == cur.role then
      aggGo { role := cur.role, content := cur.content ++ "\n\n" ++ m.content
              name := cur.name } ms
    else cur :: aggGo m ms

/-- DefaultContextCompiler._aggregate_messages: concatenate consecutive
same-role messages with a blank line; never across a role boundary. -/
def aggregateMessages (ms : List Message) : List Message :=
  match ms with
  | [] => []
  | m :: rest => aggGo m rest

/-- DefaultContextCompiler.compile.  `counter` is the injected token
counter on structured message lists, `tokenSource` the source tag it
reports.  Returns none exactly when both as_of and up_to are given (the
ValueError branch). -/
def compile (ovr : List (String × String)) (st : Store)
    (counter : List Message → Nat) (tokenSource : String)
    (headHash : String) (asOf : Option Nat) (upTo : Option String)
    (includeEd : Bool) : Option CompiledContext :=
  if asOf.isSome && upTo.isSome then none
  else
    let chain := walkChain (getAncestors st headHash) asOf upTo
    if chain.isEmpty then
      some { messages := [], token_count := 0, commit_count := 0
             token_source := "" }
    else
      let em := buildEditMap chain asOf
      let pm := buildPriorityMap st chain asOf
      let eff := effectiveCommits chain pm
      let msgs := aggregateMessages (buildMessages ovr st em includeEd eff)
      some { messages := msgs, token_count := counter msgs
             commit_count := Int.ofNat eff.length
             token_source := tokenSource }

/-- CacheManager.build_snapshot on the default-compiler path. -/
def buildSnapshot (headHash : String) (r : CompiledContext) :
    CompileSnapshot :=
  { head_hash := headHash
    messages := r.messages
    commit_count := r.commit_count
    token_count := r.token_count
    token_source := r.token_source
    generation_configs := r.generation_configs
    commit_hashes := r.commit_hashes }

/-- CacheManager.extend_for_append: build the new commit's message, append
it to the parent snapshot (no aggregation), recount tokens.  Returns the
snapshot that gets stored under the new HEAD; none when the commit row is
missing (the early return). -/
def extendForAppend (ovr : List (String × String)) (st : Store)
    (counter : List Message → Nat) (tokenSource : String)
    (commitHash : String) (parent : CompileSnapshot) :
    Option CompileSnapshot :=
  match getCommit st commitHash with
  | none => none
  | some row =>
    let newMessage := buildMessageForCommit ovr st row
    let newConfig := row.generation_config_json.getD []
    let newMessages := parent.messages ++ [newMessage]
    some { head_hash := commitHash
           messages := newMessages
           commit_count := parent.commit_count + 1
           token_count := counter newMessages
           token_source := tokenSource
           generation_configs := parent.generation_configs ++ [newConfig]
           commit_hashes := parent.commit_hashes ++ [commitHash] }

/-- CacheManager.patch_for_annotate: SKIP deletes the target's slots,
SKIP on an absent target is a no-op, a non-SKIP priority is a no-op on a
present target and forces a full recompile (none) on an absent one. -/
def patchForAnnotate (counter : List Message → Nat) (tokenSource : String)
    (snap : CompileSnapshot) (targetHash : String)
    (newPriority : Priority) : Option CompileSnapshot :=
  if snap.commit_hashes.isEmpty then none
  else
    let targetIdx := snap.commit_hashes.findIdx? (fun h => h == targetHash)
    if newPriority == Priority.SKIP then
      match targetIdx with
      | none => some snap
      | some i =>
        let newMessages := snap.messages.eraseIdx i
        some { head_hash := snap.head_hash
               messages := newMessages
               commit_count := snap.commit_count - 1
               token_count := counter newMessages
               token_source := tokenSource
               generation_configs := snap.generation_configs.eraseIdx i
               commit_hashes := snap.commit_hashes.eraseIdx i }
    else
      match targetIdx with
      | some _ => some snap
      | none => none

/-- Rebase-related errors (tract.exceptions).  Message strings are
abbreviated; only the error kind is significant to the claims. -/
inductive TractError
  | rebaseErr (msg : String)
  | semanticSafetyErr (msg : String)
  | branchNotFoundErr (name : String)
  | editTargetErr (msg : String)
deriving DecidableEq, Repr

/-- Result of an operation that can raise: a value or a TractError. -/
inductive Res (α : Type)
  | ok (val : α)
  | err (e : TractError)
deriving DecidableEq, Repr

/-- Resolver actions (llm.protocols Resolution.action). -/
inductive RAction
  | resolved
  | skipIt
  | abort
deriving DecidableEq, Repr

/-- A rebase semantic-safety warning (edit_target_missing): the EDIT
commit being replayed and the response_to hash missing from the target
branch ancestry. -/
structure RWarn where
  commitHash : String
  missingTarget : String
deriving DecidableEq, Repr

/-- RebaseResult: replayed and original commit hashes, warnings, new
head. -/
structure RebaseOutcome where
  replayed : List String := []
  originals : List String := []
  warnings : List RWarn := []
  newHead : Option String := none
deriving DecidableEq, Repr

/-- Whether a rebase result is a raised SemanticSafetyError. -/
def resultIsSemanticSafety (r : Res RebaseOutcome) : Bool :=
  match r with
  | Res.err (TractError.semanticSafetyErr _) => true
  | _ => false

/-- Whether a rebase result is a raised RebaseError. -/
def resultIsRebaseErr (r : Res RebaseOutcome) : Bool :=
  match r with
  | Res.err (TractError.rebaseErr _) => true
  | _ => false

/-- RefRepository.get_branch over the ref state. -/
def lookupBranch (st : Store) (name : String) : Option String :=
  alookup st.branches name

/-- RefRepository.set_branch. -/
def setBranch (st : Store) (name : String) (h : String) : Store :=
  { st with branches := aset st.branches name h }

/-- Modelled from the spec: RefRepository.detach_head (the concrete ref
repository in the snapshot lacks it).  HEAD points at the commit and the
current-branch marker is cleared. -/
def detachHead (st : Store) (h : String) : Store :=
  { st with head := some h, currentBranch := none }

/-- Modelled from the spec: RefRepository.attach_head.  HEAD is attached
to the named branch: the marker is set and HEAD takes the branch tip. -/
def attachHead (st : Store) (name : String) : Store :=
  { st with currentBranch := some name, head := lookupBranch st name }

/-- Second parents of a commit (commit_parents table). -/
def secondParents (st : Store) (h : String) : List String :=
  ((st.parentEdges.filter (fun e => e.1 == h)).map (·.2))

/-- Parents of a commit for DAG traversal: the primary parent plus the
second parents, available only while the commit row exists. -/
def parentsOf (st : Store) (h : String) : List String :=
  match getCommit st h with
  | none => []
  | some c =>
    (match c.parent_hash with
     | some p => [p]
     | none => []) ++ secondParents st h

/-- Fuel-bounded breadth-first walk over the parent relation, collecting
reached hashes in BFS (depth) order. -/
def bfsAux (st : Store) : Nat → List String → List String → List String
  | 0, _, vis => vis.reverse
  | _ + 1, [], vis => vis.reverse
  | f + 1, h :: rest, vis =>
    if h ∈ vis then bfsAux st f rest vis
    else bfsAux st f (rest ++ parentsOf st h) (h :: vis)

/-- Modelled from the spec: get_all_ancestors (operations/dag.py is
absent).  BFS over primary and merge parents from a commit, the commit
itself included, hashes listed in increasing depth.  The fuel bounds the
total number of queue pops, which never exceeds one plus one push per
parent edge per commit. -/
def getAllAncestors (st : Store) (h : String) : List String :=
  bfsAux st ((st.commits.length + 1) * (st.parentEdges.length + 2) + 1)
    [h] []

/-- Modelled from the spec: find_merge_base (operations/dag.py is
absent).  BFS over both ancestor sets; candidates are scanned in
increasing depth from the second commit, so the first common hash is a
minimum-by-depth candidate, as the spec allows. -/
def findMergeBase (st : Store) (a b : String) : Option String :=
  let sa := getAllAncestors st a
  (getAllAncestors st b).find? (fun h => sa.contains h)

/-- Modelled from the spec: get_branch_commits (operations/dag.py is
absent).  Commits from the base (exclusive) to the tip (inclusive) along
the primary-parent chain, in chronological order. -/
def getBranchCommits (st : Store) (tip base : String) : List CommitRow :=
  ((getAncestors st tip).takeWhile (fun c => !(c.commit_hash == base))).reverse

/-- Fresh commit hash for a replayed commit.  Stands for the
content-addressed commit digest, which is fresh for a replayed commit
because the parent hash and created_at differ from the original;
modelled as an identifier derived from the store clock. -/
def newCommitHash (st : Store) : String :=
  "replayed-" ++ toString st.clock

/-- Modelled from the spec: CommitEngine.create_commit
(engine/commit.py is absent).  Write the blob if absent, resolve the
parent as HEAD, require an EDIT target to be an ancestor of HEAD along
the primary chain (EditTargetError otherwise), insert the commit row,
advance the branch ref on an attached APPEND, always advance HEAD.
Token budget checks and cache notification are out of the modelled
scope; the caller passes the token count (replay reuses the original
content, whose count is unchanged). -/
def createCommit (st : Store) (contentHash : String)
    (payload : ContentData) (op : CommitOp) (msg : Option String)
    (respTo : Option String) (genCfg : Option GenConfig)
    (tokenCount : Nat) (contentType : String) :
    Res (Store × String) :=
  let editCheck : Bool :=
    match op, respTo, st.head with
    | CommitOp.EDIT, some t, some hh =>
      (getAncestors st hh).any (fun c => c.commit_hash == t)
    | CommitOp.EDIT, _, _ => false
    | CommitOp.APPEND, _, _ => true
  if !editCheck then
    Res.err (TractError.editTargetErr "edit target is not an ancestor of HEAD")
  else
    let blobs1 := saveIfAbsent st.blobs
      { content_hash := contentHash, payload := payload }
    let ch := newCommitHash st
    let row : CommitRow :=
      { commit_hash := ch
        parent_hash := st.head
        content_hash := contentHash
        content_type := contentType
        operation := op
        response_to := (match op with
          | CommitOp.EDIT => respTo
          | CommitOp.APPEND => none)
        message := msg
        token_count := tokenCount
        generation_config_json := genCfg
        created_at := st.clock }
    let branches1 :=
      match op, st.currentBranch with
      | CommitOp.APPEND, some br => aset st.branches br ch
      | _, _ => st.branches
    Res.ok
      ({ st with
          commits := st.commits ++ [row]
          blobs := blobs1
          branches := branches1
          head := some ch
          clock := st.clock + 1 }, ch)

/-- rebase.replay_commit: load the original content from its blob
(RebaseError when missing) and recommit it with HEAD as the new
parent. -/
def replayCommit (st : Store) (row : CommitRow) : Res (Store × String) :=
  match getBlob st.blobs row.content_hash with
  | none => Res.err (TractError.rebaseErr "cannot replay: blob missing")
  | some b =>
    createCommit st row.content_hash b.payload row.operation row.message
      (match row.operation with
       | CommitOp.EDIT => row.response_to
       | CommitOp.APPEND => none)
      row.generation_config_json row.token_count row.content_type

/-- The rebase replay loop, threading HEAD forward; on a failure the
state at the failure point is returned with the error. -/
def replayAll : Store → List CommitRow → List String →
    Store × Res (List String)
  | st, [], acc => (st, Res.ok acc.reverse)
  | st, c :: cs, acc =>
    match replayCommit st c with
    | Res.err e => (st, Res.err e)
    | Res.ok (st1, h) => replayAll st1 cs (h :: acc)

/-- The commits rebase replays: merge base (exclusive) to the current
tip in chronological order, or the whole current chain when there is no
common ancestor. -/
def replayRange (st : Store) (ct tt : String) : List CommitRow :=
  match findMergeBase st ct tt with
  | some b => getBranchCommits st ct b
  | none => (getAncestors st ct).reverse

/-- The edit_target_missing warnings for a replay range against a target
tip's ancestry. -/
def warningsOf (st : Store) (tt : String) (range : List CommitRow) :
    List RWarn :=
  range.filterMap (fun c =>
    match c.operation, c.response_to with
    | CommitOp.EDIT, some r =>
      if (getAllAncestors st tt).contains r then none
      else some { commitHash := c.commit_hash, missingTarget := r }
    | _, _ => none)

/-- The finish step of the replay stage: on a failure (or an empty
replay result, which Python surfaces as an IndexError) restore the
branch to its original tip and re-attach HEAD; on success move the
branch ref to the last replayed commit and re-attach. -/
def rebaseFinish (br ct : String) (range : List CommitRow)
    (warnings : List RWarn) (p : Store × Res (List String)) :
    Store × Res RebaseOutcome :=
  match p with
  | (st2, Res.err e) => (attachHead (setBranch st2 br ct) br, Res.err e)
  | (st2, Res.ok replayedHashes) =>
    match replayedHashes.getLast? with
    | none =>
      (attachHead (setBranch st2 br ct) br,
        Res.err (TractError.rebaseErr "no commits replayed"))
    | some newHead =>
      (attachHead (setBranch st2 br newHead) br,
        Res.ok { replayed := replayedHashes
                 originals := range.map (·.commit_hash)
                 warnings := warnings
                 newHead := some newHead })

/-- The replay stage of rebase: detach HEAD to the target tip, replay
each commit, then finish (restore on failure, advance on success). -/
def rebaseReplay (st : Store) (br ct tt : String)
    (range : List CommitRow) (warnings : List RWarn) :
    Store × Res RebaseOutcome :=
  rebaseFinish br ct range warnings
    (replayAll (detachHead st tt) range [])

/-- operations.rebase.rebase: the full control flow of the Python
function, from the detached-HEAD and branch lookups through the no-op
early returns, the merge-commit pre-flight, the semantic-safety warning
stage, and the replay. -/
def rebase (st : Store) (targetBranch : String)
    (resolver : Option (RWarn → RAction)) : Store × Res RebaseOutcome :=
  match st.currentBranch with
  | none => (st, Res.err (TractError.rebaseErr "detached HEAD"))
  | some br =>
    match st.head with
    | none => (st, Res.err (TractError.rebaseErr "no commits on current branch"))
    | some ct =>
      match lookupBranch st targetBranch with
      | none => (st, Res.err (TractError.branchNotFoundErr targetBranch))
      | some tt =>
        if ct == tt then (st, Res.ok { newHead := some ct })
        else if findMergeBase st ct tt == some tt then
          (st, Res.ok { newHead := some ct })
        else
          let range := replayRange st ct tt
          if range.isEmpty then (st, Res.ok { newHead := some ct })
          else if range.any (fun c => !(secondParents st c.commit_hash).isEmpty) then
            (st, Res.err (TractError.rebaseErr "merge commits in range"))
          else
            let warnings := warningsOf st tt range
            if warnings.isEmpty then rebaseReplay st br ct tt range warnings
            else
              match resolver with
              | none =>
                (st, Res.err (TractError.semanticSafetyErr "warnings and no resolver"))
              | some f =>
                match warnings.find? (fun w => f w == RAction.abort) with
                | some _ => (st, Res.err (TractError.rebaseErr "resolver aborted"))
                | none => rebaseReplay st br ct tt range warnings

/-- Token counter used by the concrete witnesses below: a primer of three
tokens plus, per message, its content length and four tokens of
per-message overhead (the shape of a tiktoken-style message counter). -/
def lenCounter (ms : List Message) : Nat :=
  ms.foldl (fun n m => n + m.content.length + 4) 3

/-- Blank-line join of a list of strings: the spec's wording for how a
run of same-role contents is concatenated. -/
def joinBlank : List String → String
  | [] => ""
  | [s] => s
  | s :: rest => s ++ "\n\n" ++ joinBlank rest

/-- Collapse one same-role run into its aggregated message: role and name
of the first message of the run, contents joined by a blank line. -/
def collapseRun (r : List Message) : Message :=
  match r with
  | [] => { role := "", content := "" }
  | m :: _ =>
    { role := m.role, content := joinBlank (r.map (·.content))
      name := m.name }

/-- Worker for the maximal same-role run decomposition: `first :: rest`
is the run being accumulated. -/
def runsGo (first : Message) (rest : List Message) :
    List Message → List (List Message)
  | [] => [first :: rest]
  | m :: ms =>
    if m.role == first.role then runsGo first (rest ++ [m]) ms
    else (first :: rest) :: runsGo m [] ms

/-- The decomposition of a message list into its maximal runs of
consecutive same-role messages (the spec-side description of what
aggregation operates on). -/
def runsByRole : List Message → List (List Message)
  | [] => []
  | m :: ms => runsGo m [] ms

/-- The claim's notion of an effective annotation under a cutoff: the
latest annotation among those whose created_at is at or before the
cutoff (the implementation instead takes the latest overall and discards
it when it is past the cutoff). -/
def specLatestAtOrBefore (st : Store) (h : String) (cutoff : Nat) :
    Option AnnotationRow :=
  st.annotations.foldl
    (fun acc a =>
      if a.target_hash == h && decide (a.created_at ≤ cutoff) then
        match acc with
        | none => some a
        | some b => if a.created_at > b.created_at then some a else acc
      else acc)
    none

/-- A dialogue-user payload with the given text. -/
def userPayload (s : String) : ContentData :=
  { contentType := "dialogue", role := some "user", text := some s }

/-- Store with two consecutive user dialogue commits (same role at the
append boundary): hash b1 appends onto hash a1. -/
def stSameRole : Store :=
  { commits :=
      [ { commit_hash := "a1", content_hash := "bU"
          content_type := "dialogue", operation := CommitOp.APPEND
          created_at := 1 }
      , { commit_hash := "b1", parent_hash := some "a1"
          content_hash := "bV", content_type := "dialogue"
          operation := CommitOp.APPEND, created_at := 2 } ]
    blobs :=
      [ { content_hash := "bU", payload := userPayload "U" }
      , { content_hash := "bV", payload := userPayload "V" } ] }

/-- Store with an instruction commit followed by a user dialogue commit
(distinct roles at the append boundary): hash c1 appends onto a1. -/
def stRoleSplit : Store :=
  { commits :=
      [ { commit_hash := "a1", content_hash := "bS"
          content_type := "instruction", operation := CommitOp.APPEND
          created_at := 1 }
      , { commit_hash := "c1", parent_hash := some "a1"
          content_hash := "bH", content_type := "dialogue"
          operation := CommitOp.APPEND, created_at := 2 } ]
    blobs :=
      [ { content_hash := "bS"
          payload := { contentType := "instruction", text := some "S" } }
      , { content_hash := "bH", payload := userPayload "Hi" } ] }

/-- The commit whose priority is probed in the annotation-cutoff store. -/
def rowCutoff : CommitRow :=
  { commit_hash := "c0", content_hash := "bU"
    content_type := "dialogue", operation := CommitOp.APPEND
    created_at := 1 }

/-- Store with one commit annotated IMPORTANT at time 1 and SKIP at time
3; compiling as of time 2 probes the annotation-cutoff fallback. -/
def stCutoff : Store :=
  { commits := [rowCutoff]
    blobs := [ { content_hash := "bU", payload := userPayload "U" } ]
    annotations :=
      [ { target_hash := "c0", priority := Priority.IMPORTANT
          created_at := 1 }
      , { target_hash := "c0", priority := Priority.SKIP
          created_at := 3 } ] }

/-- The edited target commit in the two-edit store. -/
def rowT0 : CommitRow :=
  { commit_hash := "t0", content_hash := "bOld"
    content_type := "dialogue", operation := CommitOp.APPEND
    created_at := 1 }

/-- The earlier edit (created_at 5) targeting t0. -/
def rowE1 : CommitRow :=
  { commit_hash := "e1", parent_hash := some "t0", content_hash := "bN1"
    content_type := "dialogue", operation := CommitOp.EDIT
    response_to := some "t0", created_at := 5 }

/-- The later edit (created_at 7) targeting t0. -/
def rowE2 : CommitRow :=
  { commit_hash := "e2", parent_hash := some "e1", content_hash := "bN2"
    content_type := "dialogue", operation := CommitOp.EDIT
    response_to := some "t0", created_at := 7 }

/-- Store holding the two-edit chain t0 <- e1 <- e2 and its blobs. -/
def stEdits : Store :=
  { commits := [rowT0, rowE1, rowE2]
    blobs :=
      [ { content_hash := "bOld", payload := userPayload "old" }
      , { content_hash := "bN1", payload := userPayload "new1" }
      , { content_hash := "bN2", payload := userPayload "new2" } ] }

/-- A two-entry snapshot with parallel messages, configs and hashes. -/
def snapTwo : CompileSnapshot :=
  { head_hash := "h2"
    messages :=
      [ { role := "user", content := "one" }
      , { role := "assistant", content := "two" } ]
    commit_count := 2
    token_count := 17
    token_source := ""
    generation_configs := [[("model", "m")], []]
    commit_hashes := ["x1", "x2"] }

/-- The EDIT commit with a missing target that sits in the replay range
of the merge-edge store. -/
def rowBadEditM : CommitRow :=
  { commit_hash := "e1", parent_hash := some "m1", content_hash := "bE"
    content_type := "dialogue", operation := CommitOp.EDIT
    response_to := some "zz", created_at := 4 }

/-- Store whose replay range contains both a merge commit (m1, second
parent x9) and an EDIT (e1) whose target zz is missing from the target
branch main: current branch feat at e1, main at t1, base b0. -/
def stMergeEdge : Store :=
  { commits :=
      [ { commit_hash := "b0", content_hash := "bB"
          content_type := "dialogue", operation := CommitOp.APPEND
          created_at := 1 }
      , { commit_hash := "t1", parent_hash := some "b0"
          content_hash := "bT", content_type := "dialogue"
          operation := CommitOp.APPEND, created_at := 2 }
      , { commit_hash := "m1", parent_hash := some "b0"
          content_hash := "bM", content_type := "dialogue"
          operation := CommitOp.APPEND, created_at := 3 }
      , rowBadEditM ]
    blobs :=
      [ { content_hash := "bB", payload := userPayload "b" }
      , { content_hash := "bT", payload := userPayload "t" }
      , { content_hash := "bM", payload := userPayload "m" }
      , { content_hash := "bE", payload := userPayload "e" } ]
    parentEdges := [("m1", "x9")]
    head := some "e1"
    currentBranch := some "feat"
    branches := [("feat", "e1"), ("main", "t1")] }

/-- Store whose replay range is the single EDIT e1 with missing target
zz and no merge commits: current branch feat at e1, main at t1. -/
def stBadEdit : Store :=
  { commits :=
      [ { commit_hash := "b0", content_hash := "bB"
          content_type := "dialogue", operation := CommitOp.APPEND
          created_at := 1 }
      , { commit_hash := "t1", parent_hash := some "b0"
          content_hash := "bT", content_type := "dialogue"
          operation := CommitOp.APPEND, created_at := 2 }
      , { commit_hash := "e1", parent_hash := some "b0"
          content_hash := "bE", content_type := "dialogue"
          operation := CommitOp.EDIT, response_to := some "zz"
          created_at := 3 } ]
    blobs :=
      [ { content_hash := "bB", payload := userPayload "b" }
      , { content_hash := "bT", payload := userPayload "t" }
      , { content_hash := "bE", payload := userPayload "e" } ]
    head := some "e1"
    currentBranch := some "feat"
    branches := [("feat", "e1"), ("main", "t1")] }

/-- Store whose single replayed commit a1 has a dangling content hash
(no blob row), so replay fails: current branch feat at a1, main at t1. -/
def stLostBlob : Store :=
  { commits :=
      [ { commit_hash := "b0", content_hash := "bB"
          content_type := "dialogue", operation := CommitOp.APPEND
          created_at := 1 }
      , { commit_hash := "t1", parent_hash := some "b0"
          content_hash := "bT", content_type := "dialogue"
          operation := CommitOp.APPEND, created_at := 2 }
      , { commit_hash := "a1", parent_hash := some "b0"
          content_hash := "missing", content_type := "dialogue"
          operation := CommitOp.APPEND, created_at := 3 } ]
    blobs :=
      [ { content_hash := "bB", payload := userPayload "b" }
      , { content_hash := "bT", payload := userPayload "t" } ]
    head := some "a1"
    currentBranch := some "feat"
    branches := [("feat", "a1"), ("main", "t1")] }

/-- Store where the current branch feat (tip c1) is strictly ahead of
the target branch main (tip b0): rebasing feat onto main is a no-op. -/
def stAhead : Store :=
  { commits :=
      [ { commit_hash := "b0", content_hash := "bB"
          content_type := "dialogue", operation := CommitOp.APPEND
          created_at := 1 }
      , { commit_hash := "c1", parent_hash := some "b0"
          content_hash := "bC", content_type := "dialogue"
          operation := CommitOp.APPEND, created_at := 2 } ]
    blobs :=
      [ { content_hash := "bB", payload := userPayload "b" }
      , { content_hash := "bC", payload := userPayload "c" } ]
    head := some "c1"
    currentBranch := some "feat"
    branches := [("feat", "c1"), ("main", "b0")] }

lemma getCommit_hash_eq (st : Store) (h : String) (c : CommitRow)
    (hc : getCommit st h = some c) : c.commit_hash = h := by
  unfold getCommit at hc
  have := List.find?_some hc
  simpa using this

lemma alookup_nil {α : Type} (k : String) :
    alookup ([] : List (String × α)) k = none := rfl

lemma alookup_cons {α : Type} (p : String × α) (rest : List (String × α))
    (k : String) :
    alookup (p :: rest) k =
      if p.1 == k then some p.2 else alookup rest k := by
  unfold alookup
  cases h : (p.1 == k) with
  | true =>
    rw [@List.find?_cons_of_pos _ (fun q => q.1 == k) p rest h]
    simp
  | false =>
    rw [@List.find?_cons_of_neg _ (fun q => q.1 == k) p rest (by simp [h])]
    simp

lemma alookup_aset_self {α : Type} (m : List (String × α)) (k : String)
    (v : α) : alookup (aset m k v) k = some v := by
  induction m with
  | nil => simp [aset, alookup_cons]
  | cons p rest ih =>
    simp only [aset]
    cases hp : (p.1 == k) with
    | true => simp [alookup_cons]
    | false => simpa [alookup_cons, hp] using ih

lemma alookup_aset_ne {α : Type} (m : List (String × α)) (k k' : String)
    (v : α) (hne : k' ≠ k) : alookup (aset m k v) k' = alookup m k' := by
  have hkk : (k == k') = false := by
    simpa using fun he => hne he.symm
  induction m with
  | nil => simp [aset, alookup_cons, hkk]
  | cons p rest ih =>
    simp only [aset]
    cases hp : (p.1 == k) with
    | true =>
      have hp' : p.1 = k := by simpa using hp
      simp [alookup_cons, hkk, hp']
    | false => simp [alookup_cons, hp, ih]

lemma upToFilter_of_not_mem (u : String) (l : List CommitRow)
    (h : u ∉ l.map (·.commit_hash)) : upToFilter u l = l := by
  induction l with
  | nil => rfl
  | cons c cs ih =>
    simp only [List.map_cons, List.mem_cons, not_or] at h
    simp only [upToFilter, beq_iff_eq]
    rw [if_neg (fun he => h.1 he.symm), ih h.2]

/-- C10.  An up_to hash that occurs nowhere in the ancestor chain of the
given HEAD truncates nothing: the chain walk returns the entire chain
(root-first), exactly as with no filter, and raises no error. -/
theorem claim_C10_walk_unknown_up_to (st : Store) (h u : String)
    (hu : u ∉ (getAncestors st h).map (·.commit_hash)) :
    walkChain (getAncestors st h) none (some u) =
      (getAncestors st h).reverse := by
  have hu' : u ∉ (getAncestors st h).reverse.map (·.commit_hash) := by
    simpa [List.map_reverse] using hu
  simp only [walkChain]
  exact upToFilter_of_not_mem u _ hu'

/-- Witness for C10 at a concrete store: the hash "zz" is not in the
two-commit chain of stAhead, and the walk returns the full chain. -/
theorem claim_C10_witness :
    "zz" ∉ (getAncestors stAhead "c1").map (·.commit_hash) ∧
      walkChain (getAncestors stAhead "c1") none (some "zz") =
        (getAncestors stAhead "c1").reverse :=
  ⟨by decide, claim_C10_walk_unknown_up_to stAhead "c1" "zz" (by decide)⟩

lemma getBlob_eq_none_of_countHash_zero (bs : List BlobRow) (H : String)
    (h : countHash bs H = 0) : getBlob bs H = none := by
  unfold countHash at h
  rw [List.length_eq_zero] at h
  unfold getBlob
  rw [List.find?_eq_none]
  intro b hb
  have := List.filter_eq_nil.mp h b hb
  simpa using this

lemma getBlob_isSome_of_countHash_pos (bs : List BlobRow) (H : String)
    (h : 0 < countHash bs H) : (getBlob bs H).isSome = true := by
  unfold countHash at h
  rw [List.length_pos] at h
  obtain ⟨b, hb⟩ := List.exists_mem_of_ne_nil _ h
  have hmem := List.mem_filter.mp hb
  unfold getBlob
  rw [List.find?_isSome]
  exact ⟨b, hmem.1, hmem.2⟩

lemma countHash_saveIfAbsent_kept (s : List BlobRow) (x : BlobRow)
    (H : String) (hx : x.content_hash = H) (h1 : countHash s H = 1) :
    saveIfAbsent s x = s := by
  unfold saveIfAbsent
  rw [hx]
  have := getBlob_isSome_of_countHash_pos s H (by omega)
  cases hg : getBlob s H with
  | none => rw [hg] at this; simp at this
  | some b => rfl

lemma countHash_fold_one (seq : List BlobRow) (s : List BlobRow)
    (H : String) (h1 : countHash s H = 1)
    (hall : ∀ x ∈ seq, x.content_hash = H) :
    countHash (seq.foldl saveIfAbsent s) H = 1 := by
  induction seq generalizing s with
  | nil => simpa using h1
  | cons x xs ih =>
    have hx : x.content_hash = H := hall x (List.mem_cons_self _ _)
    simp only [List.foldl_cons]
    rw [countHash_saveIfAbsent_kept s x H hx h1]
    exact ih s h1 (fun y hy => hall y (List.mem_cons_of_mem _ hy))

/-- C9.  save_if_absent on an already-present content hash leaves the
blob store unchanged, and folding any non-empty sequence of saves of
blobs sharing one content hash over a store without that hash leaves
exactly one row carrying it. -/
theorem claim_C9_blob_dedup (bs start : List BlobRow) (b : BlobRow)
    (seq : List BlobRow) (H : String)
    (hb : (getBlob bs b.content_hash).isSome = true)
    (h0 : countHash start H = 0) (hne : seq ≠ [])
    (hall : ∀ x ∈ seq, x.content_hash = H) :
    saveIfAbsent bs b = bs ∧
      countHash (seq.foldl saveIfAbsent start) H = 1 := by
  constructor
  · unfold saveIfAbsent
    cases hg : getBlob bs b.content_hash with
    | none => rw [hg] at hb; simp at hb
    | some x => rfl
  · cases seq with
    | nil => exact absurd rfl hne
    | cons x xs =>
      have hx : x.content_hash = H := hall x (List.mem_cons_self _ _)
      simp only [List.foldl_cons]
      have hsave : saveIfAbsent start x = start ++ [x] := by
        unfold saveIfAbsent
        rw [hx, getBlob_eq_none_of_countHash_zero start H h0]
      rw [hsave]
      have hcount1 : countHash (start ++ [x]) H = 1 := by
        unfold countHash at h0 ⊢
        rw [List.filter_append, List.length_append, h0]
        simp [hx]
      exact countHash_fold_one xs (start ++ [x]) H hcount1
        (fun y hy => hall y (List.mem_cons_of_mem _ hy))

/-- Witness for C9 at concrete blob rows: a duplicate hash is not
re-inserted, and two saves of the same payload leave one row. -/
theorem claim_C9_witness :
    (getBlob [⟨"h1", userPayload "p"⟩] "h1").isSome = true ∧
      (saveIfAbsent [⟨"h1", userPayload "p"⟩] ⟨"h1", userPayload "q"⟩ =
          [⟨"h1", userPayload "p"⟩] ∧
        countHash
          ([⟨"h2", userPayload "x"⟩, ⟨"h2", userPayload "x"⟩].foldl
            saveIfAbsent []) "h2" = 1) :=
  ⟨by decide,
    claim_C9_blob_dedup [⟨"h1", userPayload "p"⟩] []
      ⟨"h1", userPayload "q"⟩
      [⟨"h2", userPayload "x"⟩, ⟨"h2", userPayload "x"⟩] "h2"
      (by decide) (by decide) (by decide) (by decide)⟩

lemma findIdx_none_of_not_mem (l : List String) (t : String)
    (h : t ∉ l) (i : Nat) : l.findIdx? (fun x => x == t) i = none := by
  induction l generalizing i with
  | nil => rfl
  | cons x xs ih =>
    simp only [List.mem_cons, not_or] at h
    simp only [List.findIdx?]
    rw [if_neg (by simpa using fun he => h.1 he.symm)]
    exact ih h.2 (i + 1)

lemma findIdx_isSome_of_mem (l : List String) (t : String)
    (h : t ∈ l) (i : Nat) :
    (l.findIdx? (fun x => x == t) i).isSome = true := by
  induction l generalizing i with
  | nil => simp at h
  | cons x xs ih =>
    simp only [List.findIdx?]
    by_cases hx : x = t
    · simp [hx]
    · rcases List.mem_cons.mp h with he | hm
      · exact absurd he.symm hx
      · rw [if_neg (by simpa using hx)]
        exact ih hm (i + 1)

/-- C5.  patch_for_annotate on a snapshot with non-empty commit hashes:
SKIP on a present target deletes the message, config and hash slot at
the target's (first) position and decrements commit_count; SKIP on an
absent target returns the snapshot unchanged; a non-SKIP priority
returns the snapshot unchanged on a present target and none (forcing a
full recompile) on an absent one.  The two length hypotheses record the
snapshot-coherence invariant (parallel sequences) under which the
Python deletion is in range. -/
theorem claim_C5_patch_for_annotate (counter : List Message → Nat)
    (ts : String) (snap : CompileSnapshot) (target : String)
    (pri : Priority) (hne : snap.commit_hashes ≠ [])
    (hlen1 : snap.messages.length = snap.commit_hashes.length)
    (hlen2 : snap.generation_configs.length = snap.commit_hashes.length) :
    (∀ i, pri = Priority.SKIP →
      snap.commit_hashes.findIdx? (fun h => h == target) 0 = some i →
      ∃ s2, patchForAnnotate counter ts snap target pri = some s2 ∧
        s2.messages = snap.messages.eraseIdx i ∧
        s2.generation_configs = snap.generation_configs.eraseIdx i ∧
        s2.commit_hashes = snap.commit_hashes.eraseIdx i ∧
        s2.commit_count = snap.commit_count - 1) ∧
    (pri = Priority.SKIP → target ∉ snap.commit_hashes →
      patchForAnnotate counter ts snap target pri = some snap) ∧
    (pri ≠ Priority.SKIP → target ∈ snap.commit_hashes →
      patchForAnnotate counter ts snap target pri = some snap) ∧
    (pri ≠ Priority.SKIP → target ∉ snap.commit_hashes →
      patchForAnnotate counter ts snap target pri = none) := by
  have hempty : snap.commit_hashes.isEmpty = false := by
    cases hh : snap.commit_hashes with
    | nil => exact absurd hh hne
    | cons a l => simp [hh]
  refine ⟨?_, ?_, ?_, ?_⟩
  · intro i hpri hidx
    subst hpri
    have hpatch : patchForAnnotate counter ts snap target Priority.SKIP =
        some { head_hash := snap.head_hash
               messages := snap.messages.eraseIdx i
               commit_count := snap.commit_count - 1
               token_count := counter (snap.messages.eraseIdx i)
               token_source := ts
               generation_configs := snap.generation_configs.eraseIdx i
               commit_hashes := snap.commit_hashes.eraseIdx i } := by
      simp only [patchForAnnotate, hempty, Bool.false_eq_true, if_false,
        hidx, beq_self_eq_true, if_true]
    exact ⟨_, hpatch, rfl, rfl, rfl, rfl⟩
  · intro hpri hmem
    subst hpri
    have := findIdx_none_of_not_mem snap.commit_hashes target hmem 0
    simp only [patchForAnnotate, hempty, Bool.false_eq_true, if_false,
      this]
    rfl
  · intro hpri hmem
    have hsome := findIdx_isSome_of_mem snap.commit_hashes target hmem 0
    have hbeq : (pri == Priority.SKIP) = false := by
      simpa using hpri
    cases hidx : snap.commit_hashes.findIdx? (fun x => x == target) 0 with
    | none => rw [hidx] at hsome; simp at hsome
    | some i =>
      simp only [patchForAnnotate, hempty, Bool.false_eq_true, if_false,
        hidx, hbeq]
  · intro hpri hmem
    have hbeq : (pri == Priority.SKIP) = false := by
      simpa using hpri
    have hidx := findIdx_none_of_not_mem snap.commit_hashes target hmem 0
    simp only [patchForAnnotate, hempty, Bool.false_eq_true, if_false,
      hidx, hbeq]

/-- Witness for C5 at the concrete two-entry snapshot: SKIP on present
target x1 deletes slot 0 and decrements the count. -/
theorem claim_C5_witness :
    (snapTwo.commit_hashes ≠ [] ∧
      snapTwo.commit_hashes.findIdx? (fun h => h == "x1") 0 = some 0) ∧
      (∃ s2, patchForAnnotate lenCounter "" snapTwo "x1" Priority.SKIP =
          some s2 ∧
        s2.messages = snapTwo.messages.eraseIdx 0 ∧
        s2.generation_configs = snapTwo.generation_configs.eraseIdx 0 ∧
        s2.commit_hashes = snapTwo.commit_hashes.eraseIdx 0 ∧
        s2.commit_count = snapTwo.commit_count - 1) :=
  ⟨⟨by decide, by decide⟩,
    (claim_C5_patch_for_annotate lenCounter "" snapTwo "x1" Priority.SKIP
      (by decide) (by decide) (by decide)).1 0 rfl (by decide)⟩

lemma joinBlank_append_single (l : List String) (s : String) (h : l ≠ []) :
    joinBlank (l ++ [s]) = joinBlank l ++ "\n\n" ++ s := by
  induction l with
  | nil => exact absurd rfl h
  | cons a t ih =>
    cases t with
    | nil => rfl
    | cons b u =>
      have hne : b :: u ≠ [] := by simp
      calc joinBlank ((a :: b :: u) ++ [s])
          = a ++ "\n\n" ++ joinBlank ((b :: u) ++ [s]) := rfl
        _ = a ++ "\n\n" ++ (joinBlank (b :: u) ++ "\n\n" ++ s) := by
            rw [ih hne]
        _ = joinBlank (a :: b :: u) ++ "\n\n" ++ s := by
            show _ = a ++ "\n\n" ++ joinBlank (b :: u) ++ "\n\n" ++ s
            simp [String.append_assoc]

lemma collapseRun_single (m : Message) : collapseRun [m] = m := by
  cases m
  rfl

lemma collapseRun_snoc (first : Message) (rest : List Message)
    (y : Message) :
    collapseRun (first :: (rest ++ [y])) =
      { role := (collapseRun (first :: rest)).role
        content := (collapseRun (first :: rest)).content ++ "\n\n"
          ++ y.content
        name := (collapseRun (first :: rest)).name } := by
  simp only [collapseRun]
  have : (first :: (rest ++ [y])).map (·.content) =
      ((first :: rest).map (·.content)) ++ [y.content] := by simp
  rw [this, joinBlank_append_single _ _ (by simp)]

lemma collapseRun_role (first : Message) (rest : List Message) :
    (collapseRun (first :: rest)).role = first.role := rfl

lemma aggGo_eq_runsGo (ms : List Message) :
    ∀ (first : Message) (rest : List Message),
      aggGo (collapseRun (first :: rest)) ms =
        (runsGo first rest ms).map collapseRun := by
  induction ms with
  | nil => intro f r; rfl
  | cons m ms ih =>
    intro f r
    simp only [aggGo, runsGo, collapseRun_role]
    cases h : (m.role == f.role) with
    | true =>
      rw [if_pos rfl, if_pos rfl]
      have hmerge :
          ({ role := f.role
             content := (collapseRun (f :: r)).content ++ "\n\n"
               ++ m.content
             name := (collapseRun (f :: r)).name } : Message) =
            collapseRun (f :: (r ++ [m])) := by
        rw [collapseRun_snoc, collapseRun_role]
      rw [hmerge]
      exact ih f (r ++ [m])
    | false =>
      rw [if_neg (by simp), if_neg (by simp)]
      have htail := ih m []
      rw [collapseRun_single] at htail
      rw [htail]
      rfl

lemma runsGo_first (ms : List Message) :
    ∀ f r, ∃ t rs, runsGo f r ms = (f :: (r ++ t)) :: rs := by
  induction ms with
  | nil => intro f r; exact ⟨[], [], by simp [runsGo]⟩
  | cons m ms ih =>
    intro f r
    simp only [runsGo]
    cases h : (m.role == f.role) with
    | true =>
      rw [if_pos rfl]
      obtain ⟨t, rs, ht⟩ := ih f (r ++ [m])
      exact ⟨[m] ++ t, rs, by simpa [List.append_assoc] using ht⟩
    | false =>
      rw [if_neg (by simp)]
      exact ⟨[], runsGo m [] ms, by simp⟩

lemma runsGo_props (ms : List Message) :
    ∀ f r, (∀ x ∈ r, x.role = f.role) →
      ((∀ g ∈ runsGo f r ms, g ≠ [] ∧ ∀ x ∈ g, ∀ y ∈ g, x.role = y.role) ∧
        List.Chain' (fun g₁ g₂ => ∀ x ∈ g₁, ∀ y ∈ g₂, x.role ≠ y.role)
          (runsGo f r ms) ∧
        (runsGo f r ms).join = (f :: r) ++ ms) := by
  induction ms with
  | nil =>
    intro f r hr
    refine ⟨?_, ?_, by simp [runsGo]⟩
    · intro g hg
      simp only [runsGo, List.mem_singleton] at hg
      subst hg
      refine ⟨by simp, ?_⟩
      intro x hx y hy
      rcases List.mem_cons.mp hx with hx | hx <;>
        rcases List.mem_cons.mp hy with hy | hy
      · rw [hx, hy]
      · rw [hx, hr y hy]
      · rw [hr x hx, hy]
      · rw [hr x hx, hr y hy]
    · simp [runsGo]
  | cons m ms ih =>
    intro f r hr
    simp only [runsGo]
    cases h : (m.role == f.role) with
    | true =>
      rw [if_pos rfl]
      have hm : m.role = f.role := by simpa using h
      have hres := ih f (r ++ [m]) ?_
      · simpa [List.append_assoc] using hres
      · intro x hx
        rcases List.mem_append.mp hx with hx | hx
        · exact hr x hx
        · rw [List.mem_singleton.mp hx]; exact hm
    | false =>
      rw [if_neg (by simp)]
      have hm : m.role ≠ f.role := by simpa using h
      obtain ⟨hruns, hchain, hjoin⟩ := ih m [] (by simp)
      have hcur : ∀ x ∈ f :: r, x.role = f.role := by
        intro x hx
        rcases List.mem_cons.mp hx with hx | hx
        · rw [hx]
        · exact hr x hx
      refine ⟨?_, ?_, by simp [hjoin]⟩
      · intro g hg
        rcases List.mem_cons.mp hg with hg | hg
        · subst hg
          refine ⟨by simp, ?_⟩
          intro x hx y hy
          rw [hcur x hx, hcur y hy]
        · exact hruns g hg
      · rw [List.chain'_cons']
        refine ⟨?_, hchain⟩
        intro g hg
        obtain ⟨t, rs, ht⟩ := runsGo_first ms m []
        rw [ht] at hg
        simp only [List.head?_cons, Option.mem_def, Option.some.injEq] at hg
        subst hg
        intro x hx y hy
        have hx' : x.role = f.role := hcur x hx
        have hy' : y.role = m.role := by
          have hmem : (m :: ([] ++ t)) ∈ runsGo m [] ms := by
            rw [ht]; exact List.mem_cons_self _ _
          have := (hruns _ hmem).2 y hy m (List.mem_cons_self _ _)
          exact this
        rw [hx', hy']
        exact fun he => hm he.symm

lemma chain'_imp_mem {α : Type} {R S : α → α → Prop} (P : α → Prop) :
    ∀ (l : List α), List.Chain' R l → (∀ g ∈ l, P g) →
      (∀ a b, P a → P b → R a b → S a b) → List.Chain' S l := by
  intro l
  induction l with
  | nil => intro _ _ _; simp
  | cons a t ih =>
    intro hc hP himp
    cases t with
    | nil => simp
    | cons b u =>
      rw [List.chain'_cons] at hc ⊢
      refine ⟨himp a b (hP a (by simp)) (hP b (by simp)) hc.1, ?_⟩
      exact ih hc.2 (fun g hg => hP g (List.mem_cons_of_mem _ hg)) himp

/-- C4.  The compiler's aggregation: the input decomposes into maximal
runs of consecutive same-role messages (the runs concatenate back to
the input, each run is non-empty and single-role, and adjacent runs
have different roles), the aggregated output is exactly one message per
run whose content is the run's contents joined by a blank line (and
whose role and name come from the run's first message), and no two
consecutive output messages share a role. -/
theorem claim_C4_same_role_aggregation (ms : List Message) :
    (runsByRole ms).join = ms ∧
    (∀ g ∈ runsByRole ms, g ≠ [] ∧ ∀ x ∈ g, ∀ y ∈ g, x.role = y.role) ∧
    List.Chain' (fun g₁ g₂ => ∀ x ∈ g₁, ∀ y ∈ g₂, x.role ≠ y.role)
      (runsByRole ms) ∧
    aggregateMessages ms = (runsByRole ms).map collapseRun ∧
    List.Chain' (fun a b => a.role ≠ b.role) (aggregateMessages ms) := by
  cases ms with
  | nil => simp [runsByRole, aggregateMessages]
  | cons m rest =>
    obtain ⟨hruns, hchain, hjoin⟩ := runsGo_props rest m [] (by simp)
    have hagg : aggregateMessages (m :: rest) =
        (runsByRole (m :: rest)).map collapseRun := by
      show aggGo m rest = (runsGo m [] rest).map collapseRun
      have := aggGo_eq_runsGo rest m []
      rwa [collapseRun_single] at this
    refine ⟨by simpa using hjoin, hruns, hchain, hagg, ?_⟩
    rw [hagg]
    rw [List.chain'_map]
    exact chain'_imp_mem (fun (g : List Message) => g ≠ [] ∧
      ∀ x ∈ g, ∀ y ∈ g, x.role = y.role) (runsByRole (m :: rest))
      hchain hruns (fun g₁ g₂ hP1 hP2 hR => by
        cases g₁ with
        | nil => exact absurd rfl hP1.1
        | cons x₁ t₁ =>
          cases g₂ with
          | nil => exact absurd rfl hP2.1
          | cons x₂ t₂ =>
            rw [collapseRun_role, collapseRun_role]
            exact hR x₁ (List.mem_cons_self _ _) x₂
              (List.mem_cons_self _ _))

lemma priorityFold_lookup (st : Store) (asOf : Option Nat) (c : CommitRow) :
    ∀ (l : List CommitRow) (acc : List (String × Priority)),
      (∀ c' ∈ l, c'.commit_hash = c.commit_hash → c' = c) →
      (c ∈ l ∨ alookup acc c.commit_hash = some (effPriority st asOf c)) →
      alookup
        (l.foldl (fun m d => aset m d.commit_hash (effPriority st asOf d))
          acc) c.commit_hash = some (effPriority st asOf c) := by
  intro l
  induction l with
  | nil =>
    intro acc _ hin
    rcases hin with hin | hin
    · simp at hin
    · simpa using hin
  | cons d l ih =>
    intro acc hcoh hin
    simp only [List.foldl_cons]
    by_cases hd : d.commit_hash = c.commit_hash
    · have hdc : d = c := hcoh d (List.mem_cons_self _ _) hd
      subst hdc
      refine ih _ (fun c' hc' => hcoh c' (List.mem_cons_of_mem _ hc')) ?_
      right
      exact alookup_aset_self _ _ _
    · have hkeep : alookup (aset acc d.commit_hash (effPriority st asOf d))
          c.commit_hash = alookup acc c.commit_hash :=
        alookup_aset_ne _ _ _ _ (fun he => hd he.symm)
      refine ih _ (fun c' hc' => hcoh c' (List.mem_cons_of_mem _ hc')) ?_
      rcases hin with hin | hin
      · rcases List.mem_cons.mp hin with he | hm
        · exact absurd (he ▸ rfl) hd
        · exact Or.inl hm
      · right; rw [hkeep]; exact hin

lemma latestFold_bound (h : String) :
    ∀ (l : List AnnotationRow) (acc : Option AnnotationRow)
      (a : AnnotationRow),
      l.foldl
        (fun acc x =>
          if x.target_hash == h then
            match acc with
            | none => some x
            | some b => if x.created_at > b.created_at then some x else acc
          else acc) acc = some a →
      (∀ x ∈ l, x.target_hash = h → x.created_at ≤ a.created_at) ∧
        (∀ b, acc = some b → b.created_at ≤ a.created_at) := by
  intro l
  induction l with
  | nil =>
    intro acc a hfold
    simp only [List.foldl_nil] at hfold
    refine ⟨by simp, ?_⟩
    intro b hb
    rw [hb] at hfold
    cases hfold
    exact le_refl _
  | cons x l ih =>
    intro acc a hfold
    simp only [List.foldl_cons] at hfold
    obtain ⟨hall, hacc⟩ := ih _ a hfold
    by_cases hx : x.target_hash = h
    · have hstep : x.created_at ≤ a.created_at := by
        cases acc with
        | none =>
          refine hacc x ?_
          simp [hx]
        | some b =>
          by_cases hgt : x.created_at > b.created_at
          · refine hacc x ?_
            simp [hx, hgt]
          · have hb : b.created_at ≤ a.created_at := by
              refine hacc b ?_
              simp [hx, hgt]
            omega
      refine ⟨?_, ?_⟩
      · intro y hy hyh
        rcases List.mem_cons.mp hy with hy | hy
        · rw [hy]; exact hstep
        · exact hall y hy hyh
      · intro b hb
        cases acc with
        | none => cases hb
        | some b2 =>
          injection hb with hb2
          rw [← hb2]
          by_cases hgt : x.created_at > b2.created_at
          · have := hacc x (by simp [hx, hgt])
            omega
          · exact hacc b2 (by simp [hx, hgt])
    · have hx' : (x.target_hash == h) = false := by simpa using hx
      rw [if_neg (by simp [hx'])] at hfold
      refine ⟨?_, ?_⟩
      · intro y hy hyh
        rcases List.mem_cons.mp hy with hy | hy
        · exact absurd (hy ▸ hyh) hx
        · exact (ih _ a hfold).1 y hy hyh
      · exact (ih _ a hfold).2

lemma specFold_eq_latestFold (h : String) (t : Nat) :
    ∀ (l : List AnnotationRow) (acc : Option AnnotationRow),
      (∀ x ∈ l, x.target_hash = h → x.created_at ≤ t) →
      l.foldl
        (fun acc x =>
          if x.target_hash == h && decide (x.created_at ≤ t) then
            match acc with
            | none => some x
            | some b => if x.created_at > b.created_at then some x else acc
          else acc) acc =
      l.foldl
        (fun acc x =>
          if x.target_hash == h then
            match acc with
            | none => some x
            | some b => if x.created_at > b.created_at then some x else acc
          else acc) acc := by
  intro l
  induction l with
  | nil => intro acc _; rfl
  | cons x l ih =>
    intro acc hall
    simp only [List.foldl_cons]
    have hcond : (x.target_hash == h && decide (x.created_at ≤ t)) =
        (x.target_hash == h) := by
      by_cases hx : x.target_hash = h
      · have hle := hall x (List.mem_cons_self _ _) hx
        simp [hx, hle]
      · simp [hx]
    rw [hcond]
    exact ih _ (fun y hy => hall y (List.mem_cons_of_mem _ hy))

lemma specLatest_eq_latestAnn (st : Store) (h : String) (t : Nat)
    (a : AnnotationRow) (ha : latestAnnOf st h = some a)
    (hle : a.created_at ≤ t) :
    specLatestAtOrBefore st h t = some a := by
  have hb := (latestFold_bound h st.annotations none a ha).1
  unfold specLatestAtOrBefore
  rw [specFold_eq_latestFold h t st.annotations none
    (fun x hx hxh => le_trans (hb x hx hxh) hle)]
  exact ha

/-- C2 counterexample.  At the store stCutoff the latest annotation at
or before the cutoff 2 is the IMPORTANT one, so the claim says the
priority map assigns IMPORTANT; the implementation discards the
globally-latest annotation (SKIP at time 3, past the cutoff) and falls
back to the dialogue default NORMAL instead. -/
theorem claim_C2_counterexample :
    specLatestAtOrBefore stCutoff "c0" 2 =
      some { target_hash := "c0", priority := Priority.IMPORTANT
             created_at := 1 } ∧
    alookup (buildPriorityMap stCutoff [rowCutoff] (some 2)) "c0" =
      some Priority.NORMAL ∧
    Priority.NORMAL ≠ Priority.IMPORTANT := by
  refine ⟨by decide, by decide, by decide⟩

/-- C2 as amended.  For every visible commit the compiler assigns the
priority of the commit's latest annotation overall when that
annotation's created_at is at or before the cutoff (in which case it
also is the latest at-or-before-cutoff annotation, as the claim says);
when the latest annotation overall is past the cutoff the compiler
falls back to the content-type default even if an older annotation at
or before the cutoff exists, and with no annotation at all it also
falls back to the default.  The coherence hypothesis rules out two
distinct rows of the chain sharing one commit hash. -/
theorem claim_C2_amended_priority_map (st : Store)
    (chain : List CommitRow) (asOf : Option Nat) (c : CommitRow)
    (hc : c ∈ chain)
    (hcoh : ∀ c₁ ∈ chain, ∀ c₂ ∈ chain,
      c₁.commit_hash = c₂.commit_hash → c₁ = c₂) :
    alookup (buildPriorityMap st chain asOf) c.commit_hash =
      some (effPriority st asOf c) ∧
    (∀ a t, latestAnnOf st c.commit_hash = some a → asOf = some t →
      (a.created_at ≤ t →
        effPriority st asOf c = a.priority ∧
        specLatestAtOrBefore st c.commit_hash t = some a) ∧
      (a.created_at > t →
        effPriority st asOf c = defaultTypePriorities c.content_type)) ∧
    (latestAnnOf st c.commit_hash = none →
      effPriority st asOf c = defaultTypePriorities c.content_type) := by
  refine ⟨?_, ?_, ?_⟩
  · exact priorityFold_lookup st asOf c chain []
      (fun c' hc' he => hcoh c' hc' c hc he) (Or.inl hc)
  · intro a t ha hasOf
    subst hasOf
    constructor
    · intro hle
      constructor
      · unfold effPriority
        rw [ha]
        have : ¬(a.created_at > t) := by omega
        simp [this]
      · exact specLatest_eq_latestAnn st c.commit_hash t a ha hle
    · intro hgt
      unfold effPriority
      rw [ha]
      simp [hgt]
  · intro ha
    unfold effPriority
    rw [ha]

/-- Witness for the amended C2 at the concrete cutoff store: the latest
annotation overall (SKIP at time 3) is past the cutoff 2, so the
assigned priority is the dialogue default NORMAL. -/
theorem claim_C2_witness :
    (rowCutoff ∈ [rowCutoff]) ∧
      (alookup (buildPriorityMap stCutoff [rowCutoff] (some 2))
          rowCutoff.commit_hash = some (effPriority stCutoff (some 2) rowCutoff) ∧
        (∀ a t, latestAnnOf stCutoff rowCutoff.commit_hash = some a →
          (some 2 : Option Nat) = some t →
          (a.created_at ≤ t →
            effPriority stCutoff (some 2) rowCutoff = a.priority ∧
            specLatestAtOrBefore stCutoff rowCutoff.commit_hash t = some a) ∧
          (a.created_at > t →
            effPriority stCutoff (some 2) rowCutoff =
              defaultTypePriorities rowCutoff.content_type)) ∧
        (latestAnnOf stCutoff rowCutoff.commit_hash = none →
          effPriority stCutoff (some 2) rowCutoff =
            defaultTypePriorities rowCutoff.content_type)) :=
  ⟨by decide,
    claim_C2_amended_priority_map stCutoff [rowCutoff] (some 2) rowCutoff
      (by decide) (by decide)⟩

lemma editStep_keep_nonedit (asOf : Option Nat)
    (m : List (String × CommitRow)) (c : CommitRow)
    (h : c.operation = CommitOp.APPEND) : editStep asOf m c = m := by
  unfold editStep
  rw [h]

lemma editStep_edit_none (acc : List (String × CommitRow))
    (c : CommitRow) (t : String) (hcop : c.operation = CommitOp.EDIT)
    (hcresp : c.response_to = some t) (halk : alookup acc t = none) :
    editStep none acc c = aset acc t c := by
  unfold editStep
  rw [hcop, hcresp]
  show (if (false = true) then acc
    else match alookup acc t with
      | none => aset acc t c
      | some e => if c.created_at > e.created_at then aset acc t c
          else acc) = _
  rw [if_neg (by simp), halk]

lemma editStep_edit_gt (acc : List (String × CommitRow))
    (c x : CommitRow) (t : String) (hcop : c.operation = CommitOp.EDIT)
    (hcresp : c.response_to = some t) (halk : alookup acc t = some x)
    (hgt : c.created_at > x.created_at) :
    editStep none acc c = aset acc t c := by
  unfold editStep
  rw [hcop, hcresp]
  show (if (false = true) then acc
    else match alookup acc t with
      | none => aset acc t c
      | some e => if c.created_at > e.created_at then aset acc t c
          else acc) = _
  rw [if_neg (by simp), halk]
  show (if c.created_at > x.created_at then aset acc t c else acc) = _
  rw [if_pos hgt]

lemma editStep_edit_le (acc : List (String × CommitRow))
    (c x : CommitRow) (t : String) (hcop : c.operation = CommitOp.EDIT)
    (hcresp : c.response_to = some t) (halk : alookup acc t = some x)
    (hgt : ¬(c.created_at > x.created_at)) :
    editStep none acc c = acc := by
  unfold editStep
  rw [hcop, hcresp]
  show (if (false = true) then acc
    else match alookup acc t with
      | none => aset acc t c
      | some e => if c.created_at > e.created_at then aset acc t c
          else acc) = _
  rw [if_neg (by simp), halk]
  show (if c.created_at > x.created_at then aset acc t c else acc) = _
  rw [if_neg hgt]

lemma editStep_lookup_ne (asOf : Option Nat)
    (m : List (String × CommitRow)) (c : CommitRow) (t : String)
    (h : ¬(c.operation = CommitOp.EDIT ∧ c.response_to = some t)) :
    alookup (editStep asOf m c) t = alookup m t := by
  unfold editStep
  split
  · next t' heq1 heq2 =>
    have ht' : t ≠ t' := fun he => h ⟨heq1, he ▸ heq2⟩
    split
    · rfl
    · split
      · exact alookup_aset_ne m t' t c ht'
      · split
        · exact alookup_aset_ne m t' t c ht'
        · rfl
  · rfl

lemma editFold_latest (t : String) (e : CommitRow)
    (hop : e.operation = CommitOp.EDIT) (hresp : e.response_to = some t) :
    ∀ (l : List CommitRow) (acc : List (String × CommitRow)),
      (∀ e' ∈ l, e'.operation = CommitOp.EDIT → e'.response_to = some t →
        e' = e ∨ e'.created_at < e.created_at) →
      (alookup acc t = none ∨
        (∃ x, alookup acc t = some x ∧
          (x = e ∨ x.created_at < e.created_at))) →
      (e ∈ l ∨ alookup acc t = some e) →
      alookup (l.foldl (editStep none) acc) t = some e := by
  intro l
  induction l with
  | nil =>
    intro acc _ _ hin
    rcases hin with hin | hin
    · simp at hin
    · simpa using hin
  | cons c l ih =>
    intro acc hmax hpre hin
    simp only [List.foldl_cons]
    by_cases hce : c.operation = CommitOp.EDIT ∧ c.response_to = some t
    · obtain ⟨hcop, hcresp⟩ := hce
      rcases hmax c (List.mem_cons_self _ _) hcop hcresp with hceq | hclt
      · -- the head is e itself: after this step the map holds e
        have hlook : alookup (editStep none acc c) t = some e := by
          rcases hpre with hp | ⟨x, hx, hxc⟩
          · rw [editStep_edit_none acc c t hcop hcresp hp]
            rw [← hceq]
            exact alookup_aset_self _ _ _
          · rcases hxc with hxe | hxlt
            · by_cases hgt : c.created_at > x.created_at
              · rw [editStep_edit_gt acc c x t hcop hcresp hx hgt]
                rw [← hceq]
                exact alookup_aset_self _ _ _
              · rw [editStep_edit_le acc c x t hcop hcresp hx hgt]
                rw [hxe] at hx
                exact hx
            · have hgt : c.created_at > x.created_at := by
                rw [hceq]; omega
              rw [editStep_edit_gt acc c x t hcop hcresp hx hgt]
              rw [← hceq]
              exact alookup_aset_self _ _ _
        refine ih _ (fun e' he' => hmax e' (List.mem_cons_of_mem _ he'))
          (Or.inr ⟨e, hlook, Or.inl rfl⟩) (Or.inr hlook)
      · -- the head is an older edit of t
        have hne : c ≠ e := fun he => by rw [he] at hclt; omega
        have hstep : alookup (editStep none acc c) t = some c ∨
            editStep none acc c = acc := by
          rcases hpre with hp | ⟨x, hx, _⟩
          · rw [editStep_edit_none acc c t hcop hcresp hp]
            exact Or.inl (alookup_aset_self _ _ _)
          · by_cases hgt : c.created_at > x.created_at
            · rw [editStep_edit_gt acc c x t hcop hcresp hx hgt]
              exact Or.inl (alookup_aset_self _ _ _)
            · exact Or.inr (editStep_edit_le acc c x t hcop hcresp hx hgt)
        have hpre' : alookup (editStep none acc c) t = none ∨
            ∃ x, alookup (editStep none acc c) t = some x ∧
              (x = e ∨ x.created_at < e.created_at) := by
          rcases hstep with hs | hs
          · exact Or.inr ⟨c, hs, Or.inr hclt⟩
          · rw [hs]; exact hpre
        have hin' : e ∈ l ∨ alookup (editStep none acc c) t = some e := by
          rcases hin with hi | hi
          · rcases List.mem_cons.mp hi with hi | hi
            · exact absurd hi.symm hne
            · exact Or.inl hi
          · -- the map already holds e; an older edit cannot displace it
            right
            by_cases hgt : c.created_at > e.created_at
            · omega
            · rw [editStep_edit_le acc c e t hcop hcresp hi hgt]
              exact hi
        exact ih _ (fun e' he' => hmax e' (List.mem_cons_of_mem _ he'))
          hpre' hin'
    · have hkeep := editStep_lookup_ne none acc c t hce
      have hin' : e ∈ l ∨ alookup (editStep none acc c) t = some e := by
        rcases hin with hi | hi
        · rcases List.mem_cons.mp hi with hi | hi
          · exact absurd ⟨hi ▸ hop, hi ▸ hresp⟩ hce
          · exact Or.inl hi
        · right; rw [hkeep]; exact hi
      refine ih _ (fun e' he' => hmax e' (List.mem_cons_of_mem _ he'))
        ?_ hin'
      rw [hkeep]
      exact hpre

/-- C3.  If an EDIT commit e targeting commit hash t has strictly the
greatest created_at among all EDITs targeting t in the walked chain,
then the edit map resolves t to e, and the message the compiler builds
for the slot of t is built from e's content; because the statement
quantifies over every chain ordering, the result is independent of the
order in which the edits appear in the walk. -/
theorem claim_C3_latest_edit_wins (st : Store) (chain : List CommitRow)
    (t : String) (e : CommitRow) (he : e ∈ chain)
    (hop : e.operation = CommitOp.EDIT) (hresp : e.response_to = some t)
    (hmax : ∀ e' ∈ chain, e'.operation = CommitOp.EDIT →
      e'.response_to = some t → e' = e ∨ e'.created_at < e.created_at) :
    alookup (buildEditMap chain none) t = some e ∧
    ∀ (ovr : List (String × String)) (c : CommitRow),
      c.commit_hash = t →
      renderCommit ovr st (buildEditMap chain none) false c =
        buildMessageForCommit ovr st e := by
  have hmap : alookup (buildEditMap chain none) t = some e :=
    editFold_latest t e hop hresp chain [] hmax (Or.inl rfl) (Or.inl he)
  refine ⟨hmap, ?_⟩
  intro ovr c hc
  unfold renderCommit
  rw [hc, hmap]
  rfl

/-- Witness for C3 at the concrete two-edit store: the later edit e2
(created_at 7) beats e1 (created_at 5), and the message rendered for
the target t0 is built from e2. -/
theorem claim_C3_witness :
    (rowE2 ∈ [rowT0, rowE1, rowE2] ∧
      rowE2.operation = CommitOp.EDIT) ∧
      (alookup (buildEditMap [rowT0, rowE1, rowE2] none) "t0" =
          some rowE2 ∧
        ∀ (ovr : List (String × String)) (c : CommitRow),
          c.commit_hash = "t0" →
          renderCommit ovr stEdits
              (buildEditMap [rowT0, rowE1, rowE2] none) false c =
            buildMessageForCommit ovr stEdits rowE2) :=
  ⟨⟨by decide, by decide⟩,
    claim_C3_latest_edit_wins stEdits [rowT0, rowE1, rowE2] "t0" rowE2
      (by decide) (by decide) (by decide) (by decide)⟩

lemma bfsAux_prefix (st : Store) :
    ∀ (f : Nat) (q vis : List String),
      ∃ tail, bfsAux st f q vis = vis.reverse ++ tail := by
  intro f
  induction f with
  | zero => intro q vis; exact ⟨[], by simp [bfsAux]⟩
  | succ f ih =>
    intro q vis
    cases q with
    | nil => exact ⟨[], by simp [bfsAux]⟩
    | cons h rest =>
      simp only [bfsAux]
      by_cases hv : h ∈ vis
      · rw [if_pos hv]
        exact ih rest vis
      · rw [if_neg hv]
        obtain ⟨tail, ht⟩ := ih (rest ++ parentsOf st h) (h :: vis)
        refine ⟨h :: tail, ?_⟩
        rw [ht]
        simp

lemma getAllAncestors_head (st : Store) (h : String) :
    ∃ tail, getAllAncestors st h = h :: tail := by
  unfold getAllAncestors
  show ∃ tail, bfsAux st (_ + 1) [h] [] = h :: tail
  simp only [bfsAux]
  rw [if_neg (by simp)]
  obtain ⟨tail, ht⟩ := bfsAux_prefix st _ (([] : List String)
    ++ parentsOf st h) [h]
  exact ⟨tail, by simpa using ht⟩

lemma findMergeBase_of_ancestor (st : Store) (ct tt : String)
    (hanc : tt ∈ getAllAncestors st ct) :
    findMergeBase st ct tt = some tt := by
  unfold findMergeBase
  obtain ⟨tail, ht⟩ := getAllAncestors_head st tt
  rw [ht]
  have hcontains : ((getAllAncestors st ct).contains tt) = true :=
    List.elem_eq_true_of_mem hanc
  rw [@List.find?_cons_of_pos _
    (fun x => (getAllAncestors st ct).contains x) tt tail hcontains]

/-- C8.  When the target branch tip is already contained in the current
tip's ancestry (the two tips equal included), rebase is a no-op: it
returns a result whose new_head is the current tip, replays nothing,
creates no commit, and leaves the whole store (branch refs and HEAD
included) unchanged. -/
theorem claim_C8_rebase_noop (st : Store) (tb br ct tt : String)
    (resolver : Option (RWarn → RAction))
    (h1 : st.currentBranch = some br) (h2 : st.head = some ct)
    (h3 : lookupBranch st tb = some tt)
    (hanc : tt ∈ getAllAncestors st ct) :
    rebase st tb resolver = (st, Res.ok { newHead := some ct }) := by
  simp only [rebase, h1, h2, h3]
  by_cases hct : ct = tt
  · simp [hct]
  · have hbeq : (ct == tt) = false := by simpa using hct
    have hmb : findMergeBase st ct tt = some tt :=
      findMergeBase_of_ancestor st ct tt hanc
    simp [hbeq, hmb]

/-- Witness for C8 at the concrete store stAhead: feat (tip c1) already
contains main's tip b0, so the rebase returns c1 and changes nothing. -/
theorem claim_C8_witness :
    "b0" ∈ getAllAncestors stAhead "c1" ∧
      rebase stAhead "main" none =
        (stAhead, Res.ok { newHead := some "c1" }) :=
  ⟨by decide,
    claim_C8_rebase_noop stAhead "main" "feat" "c1" "b0" none rfl rfl
      (by decide) (by decide)⟩

lemma rebaseFinish_err_restore (br ct : String)
    (range : List CommitRow) (warnings : List RWarn)
    (p : Store × Res (List String)) (err : TractError)
    (h : (rebaseFinish br ct range warnings p).2 = Res.err err) :
    lookupBranch (rebaseFinish br ct range warnings p).1 br = some ct ∧
      (rebaseFinish br ct range warnings p).1.currentBranch = some br ∧
      (rebaseFinish br ct range warnings p).1.head = some ct := by
  obtain ⟨st2, r⟩ := p
  cases r with
  | err e =>
    refine ⟨?_, rfl, ?_⟩
    · exact alookup_aset_self _ _ _
    · exact alookup_aset_self _ _ _
  | ok hashes =>
    simp only [rebaseFinish] at h ⊢
    cases hlast : hashes.getLast? with
    | none =>
      refine ⟨?_, rfl, ?_⟩
      · exact alookup_aset_self _ _ _
      · exact alookup_aset_self _ _ _
    | some newHead =>
      rw [hlast] at h
      exact Res.noConfusion h

/-- C7.  When rebase reaches the replay stage (attached HEAD, resolved
tips, a non-trivial replay range with no merge parents, and no
unresolved or aborted warnings) and replaying some commit raises, the
propagated error leaves the current branch ref pointing at the
branch's original tip and HEAD re-attached to the current branch. -/
theorem claim_C7_rebase_failure_restores (st : Store) (tb br ct tt : String)
    (resolver : Option (RWarn → RAction)) (err : TractError)
    (h1 : st.currentBranch = some br) (h2 : st.head = some ct)
    (h3 : lookupBranch st tb = some tt) (h4 : ct ≠ tt)
    (h5 : findMergeBase st ct tt ≠ some tt)
    (h6 : ∀ c ∈ replayRange st ct tt, secondParents st c.commit_hash = [])
    (h7 : resolver = none → warningsOf st tt (replayRange st ct tt) = [])
    (h8 : ∀ f w, resolver = some f →
      w ∈ warningsOf st tt (replayRange st ct tt) → f w ≠ RAction.abort)
    (h9 : (rebase st tb resolver).2 = Res.err err) :
    lookupBranch (rebase st tb resolver).1 br = some ct ∧
      (rebase st tb resolver).1.currentBranch = some br ∧
      (rebase st tb resolver).1.head = some ct := by
  have hbeq1 : (ct == tt) = false := by simpa using h4
  have hbeq2 : (findMergeBase st ct tt == some tt) = false := by
    simpa using h5
  have hany : ((replayRange st ct tt).any
      (fun c => !(secondParents st c.commit_hash).isEmpty)) = false := by
    rw [List.any_eq_false]
    intro c hc
    rw [h6 c hc]
    simp
  have hre : rebase st tb resolver =
      rebaseReplay st br ct tt (replayRange st ct tt)
        (warningsOf st tt (replayRange st ct tt)) := by
    cases hremp : (replayRange st ct tt).isEmpty with
    | true =>
      exfalso
      have : (rebase st tb resolver).2 =
          Res.ok { newHead := some ct } := by
        simp [rebase, h1, h2, h3, hbeq1, hbeq2, hremp]
      rw [h9] at this
      cases this
    | false =>
      cases resolver with
      | none =>
        have hw := h7 rfl
        simp [rebase, h1, h2, h3, hbeq1, hbeq2, hremp, hany, hw]
      | some f =>
        cases hwemp : (warningsOf st tt (replayRange st ct tt)).isEmpty with
        | true =>
          simp [rebase, h1, h2, h3, hbeq1, hbeq2, hremp, hany, hwemp]
        | false =>
          have hfind : (warningsOf st tt (replayRange st ct tt)).find?
              (fun w => f w == RAction.abort) = none := by
            rw [List.find?_eq_none]
            intro w hw
            simpa using h8 f w rfl hw
          simp [rebase, h1, h2, h3, hbeq1, hbeq2, hremp, hany, hwemp,
            hfind]
  rw [hre] at h9 ⊢
  exact rebaseFinish_err_restore br ct _ _ _ err h9

/-- Witness for C7 at the concrete store stLostBlob: the single replayed
commit a1 has no blob, replay raises RebaseError, and afterwards the
branch feat points back at a1 with HEAD attached to it. -/
theorem claim_C7_witness :
    (rebase stLostBlob "main" none).2 =
        Res.err (TractError.rebaseErr "cannot replay: blob missing") ∧
      (lookupBranch (rebase stLostBlob "main" none).1 "feat" =
          some "a1" ∧
        (rebase stLostBlob "main" none).1.currentBranch = some "feat" ∧
        (rebase stLostBlob "main" none).1.head = some "a1") :=
  ⟨by decide,
    claim_C7_rebase_failure_restores stLostBlob "main" "feat" "a1" "t1"
      none (TractError.rebaseErr "cannot replay: blob missing") rfl rfl
      (by decide) (by decide) (by decide) (by decide)
      (fun _ => by decide)
      (fun f w hf => nomatch hf) (by decide)⟩

lemma createCommit_err_shape (st : Store) (contentHash : String)
    (payload : ContentData) (op : CommitOp) (msg : Option String)
    (respTo : Option String) (genCfg : Option GenConfig)
    (tokenCount : Nat) (contentType : String) (e : TractError)
    (h : createCommit st contentHash payload op msg respTo genCfg
      tokenCount contentType = Res.err e) :
    ∃ m, e = TractError.editTargetErr m := by
  simp only [createCommit] at h
  split at h
  · injection h with h
    exact ⟨_, h.symm⟩
  · exact Res.noConfusion h

lemma replayCommit_err_shape (st : Store) (row : CommitRow)
    (e : TractError) (h : replayCommit st row = Res.err e) :
    (∃ m, e = TractError.rebaseErr m) ∨
      (∃ m, e = TractError.editTargetErr m) := by
  unfold replayCommit at h
  cases hb : getBlob st.blobs row.content_hash with
  | none =>
    rw [hb] at h
    injection h with h
    exact Or.inl ⟨_, h.symm⟩
  | some b =>
    rw [hb] at h
    exact Or.inr (createCommit_err_shape _ _ _ _ _ _ _ _ _ _ h)

lemma replayAll_err_shape :
    ∀ (l : List CommitRow) (st : Store) (acc : List String)
      (e : TractError), (replayAll st l acc).2 = Res.err e →
      (∃ m, e = TractError.rebaseErr m) ∨
        (∃ m, e = TractError.editTargetErr m) := by
  intro l
  induction l with
  | nil =>
    intro st acc e h
    cases h
  | cons c l ih =>
    intro st acc e h
    unfold replayAll at h
    cases hr : replayCommit st c with
    | err e2 =>
      rw [hr] at h
      injection h with h
      rw [← h]
      exact replayCommit_err_shape st c e2 hr
    | ok p =>
      obtain ⟨st1, hsh⟩ := p
      rw [hr] at h
      exact ih st1 (hsh :: acc) e h

lemma rebaseReplay_not_sse (st : Store) (br ct tt : String)
    (range : List CommitRow) (warnings : List RWarn) :
    resultIsSemanticSafety (rebaseReplay st br ct tt range warnings).2 =
      false := by
  unfold rebaseReplay rebaseFinish
  cases hra : replayAll (detachHead st tt) range [] with
  | mk st2 r =>
    cases r with
    | err e =>
      rcases replayAll_err_shape range (detachHead st tt) [] e
        (by rw [hra]) with ⟨m, hm⟩ | ⟨m, hm⟩ <;> subst hm <;> rfl
    | ok hashes =>
      show resultIsSemanticSafety ((match hashes.getLast? with
        | none => (attachHead (setBranch st2 br ct) br,
            Res.err (TractError.rebaseErr "no commits replayed"))
        | some newHead => (attachHead (setBranch st2 br newHead) br,
            Res.ok ({ replayed := hashes
                      originals := range.map
                        (fun (x : CommitRow) => x.commit_hash)
                      warnings := warnings
                      newHead := some newHead } : RebaseOutcome))).2) =
        false
      cases hashes.getLast? with
      | none => rfl
      | some newHead => rfl

lemma contains_eq_false_of_not_mem {l : List String} {a : String}
    (h : a ∉ l) : l.contains a = false := by
  cases hc : l.contains a with
  | true => exact absurd (List.mem_of_elem_eq_true hc) h
  | false => rfl

lemma warningsOf_ne_nil_iff (st : Store) (tt : String)
    (range : List CommitRow) :
    warningsOf st tt range ≠ [] ↔
      ∃ c ∈ range, c.operation = CommitOp.EDIT ∧
        ∃ r, c.response_to = some r ∧ r ∉ getAllAncestors st tt := by
  unfold warningsOf
  rw [ne_eq, List.filterMap_eq_nil]
  constructor
  · intro h
    push_neg at h
    obtain ⟨c, hc, hne⟩ := h
    refine ⟨c, hc, ?_⟩
    revert hne
    split
    · next r heq1 heq2 =>
      intro hne
      by_cases hmem : r ∈ getAllAncestors st tt
      · exact absurd (by
          rw [if_pos (List.elem_eq_true_of_mem hmem)]) hne
      · exact ⟨heq1, r, heq2, hmem⟩
    · next heq =>
      intro hne
      exact absurd rfl hne
  · rintro ⟨c, hc, hop, r, hresp, hmem⟩ hall
    have hthis := hall c hc
    revert hthis
    split
    · next r2 heq1 heq2 =>
      rw [hresp] at heq2
      injection heq2 with heq2
      subst heq2
      rw [if_neg (by
        rw [contains_eq_false_of_not_mem hmem]
        exact Bool.false_ne_true)]
      intro hthis
      cases hthis
    · next heq =>
      intro _
      exact absurd hresp (by
        have := heq r
        intro hcon
        exact (by simpa [hop, hcon] using this))

/-- C6 counterexample.  At stMergeEdge the replay range [m1, e1]
contains the EDIT e1 whose target zz is not among the ancestors of the
target tip t1, and no resolver is supplied, so the claim says rebase
raises SemanticSafetyError; but m1 carries a second parent, the merge
pre-flight fires first, and rebase raises RebaseError instead. -/
theorem claim_C6_counterexample :
    resultIsSemanticSafety (rebase stMergeEdge "main" none).2 = false ∧
    resultIsRebaseErr (rebase stMergeEdge "main" none).2 = true ∧
    (rowBadEditM ∈ replayRange stMergeEdge "e1" "t1" ∧
      rowBadEditM.operation = CommitOp.EDIT ∧
      rowBadEditM.response_to = some "zz" ∧
      "zz" ∉ getAllAncestors stMergeEdge "t1") := by
  refine ⟨by decide, by decide, by decide, by decide, by decide,
    by decide⟩

lemma isEmpty_false_of_ne_nil {α : Type} {l : List α} (h : l ≠ []) :
    l.isEmpty = false := by
  cases l with
  | nil => exact absurd rfl h
  | cons a t => rfl

/-- C6 as amended.  For a rebase that reaches the semantic-safety stage
(attached HEAD, both tips resolved, the target tip not already contained
in the current history, and no commit in the replay range carrying a
merge parent — the merge pre-flight otherwise raises RebaseError first),
rebase raises SemanticSafetyError exactly when no resolver is supplied
and the replay range contains an EDIT whose response_to target is not
among the target tip's ancestors; with a resolver, an abort resolution
on some warning makes rebase raise RebaseError instead. -/
theorem claim_C6_amended_safety_check (st : Store) (tb br ct tt : String)
    (resolver : Option (RWarn → RAction))
    (h1 : st.currentBranch = some br) (h2 : st.head = some ct)
    (h3 : lookupBranch st tb = some tt) (h4 : ct ≠ tt)
    (h5 : findMergeBase st ct tt ≠ some tt)
    (h6 : ∀ c ∈ replayRange st ct tt,
      secondParents st c.commit_hash = []) :
    (resultIsSemanticSafety (rebase st tb resolver).2 = true ↔
      resolver = none ∧ ∃ c ∈ replayRange st ct tt,
        c.operation = CommitOp.EDIT ∧ ∃ r, c.response_to = some r ∧
          r ∉ getAllAncestors st tt) ∧
    (∀ f, resolver = some f →
      (∃ w ∈ warningsOf st tt (replayRange st ct tt),
        f w = RAction.abort) →
      resultIsRebaseErr (rebase st tb resolver).2 = true) := by
  have hbeq1 : (ct == tt) = false := by simpa using h4
  have hbeq2 : (findMergeBase st ct tt == some tt) = false := by
    simpa using h5
  have hany : ((replayRange st ct tt).any
      (fun c => !(secondParents st c.commit_hash).isEmpty)) = false := by
    rw [List.any_eq_false]
    intro c hc
    rw [h6 c hc]
    simp
  constructor
  · constructor
    · intro hsse
      by_cases hremp : (replayRange st ct tt).isEmpty = true
      · exfalso
        have heq : rebase st tb resolver =
            (st, Res.ok { newHead := some ct }) := by
          simp [rebase, h1, h2, h3, hbeq1, hbeq2, hremp]
        rw [heq] at hsse
        exact Bool.noConfusion hsse
      · have hremp' : (replayRange st ct tt).isEmpty = false := by
          simpa using hremp
        by_cases hwemp :
            (warningsOf st tt (replayRange st ct tt)).isEmpty = true
        · exfalso
          have heq : rebase st tb resolver =
              rebaseReplay st br ct tt (replayRange st ct tt)
                (warningsOf st tt (replayRange st ct tt)) := by
            simp [rebase, h1, h2, h3, hbeq1, hbeq2, hremp', hany, hwemp]
          rw [heq, rebaseReplay_not_sse] at hsse
          exact Bool.noConfusion hsse
        · have hwne : warningsOf st tt (replayRange st ct tt) ≠ [] := by
            intro hcon
            rw [hcon] at hwemp
            exact hwemp rfl
          have hbad := (warningsOf_ne_nil_iff st tt
            (replayRange st ct tt)).mp hwne
          cases resolver with
          | none => exact ⟨rfl, hbad⟩
          | some f =>
            exfalso
            have hwemp' :
                (warningsOf st tt (replayRange st ct tt)).isEmpty =
                  false := by simpa using hwemp
            cases hfind : (warningsOf st tt
                (replayRange st ct tt)).find?
                  (fun w => f w == RAction.abort) with
            | some w =>
              have heq : rebase st tb (some f) =
                  (st, Res.err (TractError.rebaseErr "resolver aborted")) := by
                simp [rebase, h1, h2, h3, hbeq1, hbeq2, hremp', hany,
                  hwemp', hfind]
              rw [heq] at hsse
              exact Bool.noConfusion hsse
            | none =>
              have heq : rebase st tb (some f) =
                  rebaseReplay st br ct tt (replayRange st ct tt)
                    (warningsOf st tt (replayRange st ct tt)) := by
                simp [rebase, h1, h2, h3, hbeq1, hbeq2, hremp', hany,
                  hwemp', hfind]
              rw [heq, rebaseReplay_not_sse] at hsse
              exact Bool.noConfusion hsse
    · rintro ⟨hres, hbad⟩
      subst hres
      have hwne : warningsOf st tt (replayRange st ct tt) ≠ [] :=
        (warningsOf_ne_nil_iff st tt (replayRange st ct tt)).mpr hbad
      have hwemp := isEmpty_false_of_ne_nil hwne
      have hremp : (replayRange st ct tt).isEmpty = false := by
        obtain ⟨c, hc, _⟩ := hbad
        refine isEmpty_false_of_ne_nil ?_
        intro hcon
        rw [hcon] at hc
        cases hc
      have heq : rebase st tb none =
          (st, Res.err
            (TractError.semanticSafetyErr "warnings and no resolver")) := by
        simp [rebase, h1, h2, h3, hbeq1, hbeq2, hremp, hany, hwemp]
      rw [heq]
      rfl
  · intro f hres habort
    subst hres
    obtain ⟨w, hw, hab⟩ := habort
    have hwne : warningsOf st tt (replayRange st ct tt) ≠ [] := by
      intro hcon
      rw [hcon] at hw
      cases hw
    have hwemp := isEmpty_false_of_ne_nil hwne
    have hremp : (replayRange st ct tt).isEmpty = false := by
      refine isEmpty_false_of_ne_nil ?_
      intro hcon
      apply hwne
      unfold warningsOf
      rw [hcon]
      rfl
    have hfind : ((warningsOf st tt (replayRange st ct tt)).find?
        (fun w => f w == RAction.abort)).isSome = true := by
      rw [List.find?_isSome]
      exact ⟨w, hw, by simp [hab]⟩
    cases hfindeq : (warningsOf st tt (replayRange st ct tt)).find?
        (fun w => f w == RAction.abort) with
    | none =>
      rw [hfindeq] at hfind
      cases hfind
    | some w2 =>
      have heq : rebase st tb (some f) =
          (st, Res.err (TractError.rebaseErr "resolver aborted")) := by
        simp [rebase, h1, h2, h3, hbeq1, hbeq2, hremp, hany, hwemp,
          hfindeq]
      rw [heq]
      rfl

/-- Witness for the amended C6 at the concrete store stBadEdit: the
replay range is the single EDIT e1 with missing target zz, there is no
resolver, and rebase raises SemanticSafetyError. -/
theorem claim_C6_witness :
    (stBadEdit.currentBranch = some "feat" ∧
      findMergeBase stBadEdit "e1" "t1" ≠ some "t1") ∧
      ((resultIsSemanticSafety (rebase stBadEdit "main" none).2 = true ↔
        (none : Option (RWarn → RAction)) = none ∧
          ∃ c ∈ replayRange stBadEdit "e1" "t1",
            c.operation = CommitOp.EDIT ∧ ∃ r, c.response_to = some r ∧
              r ∉ getAllAncestors stBadEdit "t1") ∧
        (∀ f, (none : Option (RWarn → RAction)) = some f →
          (∃ w ∈ warningsOf stBadEdit "t1"
            (replayRange stBadEdit "e1" "t1"), f w = RAction.abort) →
          resultIsRebaseErr (rebase stBadEdit "main" none).2 = true)) :=
  ⟨⟨rfl, by decide⟩,
    claim_C6_amended_safety_check stBadEdit "main" "feat" "e1" "t1" none
      rfl rfl (by decide) (by decide) (by decide) (by decide)⟩

lemma buildEditMap_append_nonedit (l : List CommitRow) (c : CommitRow)
    (asOf : Option Nat) (h : c.operation = CommitOp.APPEND) :
    buildEditMap (l ++ [c]) asOf = buildEditMap l asOf := by
  unfold buildEditMap
  rw [List.foldl_append, List.foldl_cons, List.foldl_nil]
  exact editStep_keep_nonedit asOf _ c h

lemma buildPriorityMap_append (st : Store) (l : List CommitRow)
    (c : CommitRow) (asOf : Option Nat) :
    buildPriorityMap st (l ++ [c]) asOf =
      aset (buildPriorityMap st l asOf) c.commit_hash
        (effPriority st asOf c) := by
  unfold buildPriorityMap
  rw [List.foldl_append, List.foldl_cons, List.foldl_nil]

lemma editStep_lookup_shape (asOf : Option Nat)
    (m : List (String × CommitRow)) (c : CommitRow) (t : String)
    (e : CommitRow) (h : alookup (editStep asOf m c) t = some e) :
    alookup m t = some e ∨
      (e = c ∧ c.operation = CommitOp.EDIT ∧ c.response_to = some t) := by
  unfold editStep at h
  split at h
  · next t' heq1 heq2 =>
    split at h
    · exact Or.inl h
    · split at h
      · by_cases ht : t = t'
        · subst ht
          rw [alookup_aset_self] at h
          injection h with h
          exact Or.inr ⟨h.symm, heq1, heq2⟩
        · rw [alookup_aset_ne _ _ _ _ ht] at h
          exact Or.inl h
      · split at h
        · by_cases ht : t = t'
          · subst ht
            rw [alookup_aset_self] at h
            injection h with h
            exact Or.inr ⟨h.symm, heq1, heq2⟩
          · rw [alookup_aset_ne _ _ _ _ ht] at h
            exact Or.inl h
        · exact Or.inl h
  · exact Or.inl h

lemma editFold_lookup_shape (asOf : Option Nat) :
    ∀ (l : List CommitRow) (acc : List (String × CommitRow))
      (t : String) (e : CommitRow),
      alookup (l.foldl (editStep asOf) acc) t = some e →
      alookup acc t = some e ∨
        (e ∈ l ∧ e.operation = CommitOp.EDIT ∧
          e.response_to = some t) := by
  intro l
  induction l with
  | nil =>
    intro acc t e h
    exact Or.inl h
  | cons c l ih =>
    intro acc t e h
    rw [List.foldl_cons] at h
    rcases ih _ t e h with hacc | ⟨hmem, hope, hrespe⟩
    · rcases editStep_lookup_shape asOf acc c t e hacc with hm | ⟨he, h1, h2⟩
      · exact Or.inl hm
      · subst he
        exact Or.inr ⟨List.mem_cons_self _ _, h1, h2⟩
    · exact Or.inr ⟨List.mem_cons_of_mem _ hmem, hope, hrespe⟩

lemma aggGo_ne_nil : ∀ (ms : List Message) (cur : Message),
    aggGo cur ms ≠ [] := by
  intro ms
  induction ms with
  | nil => intro cur; simp [aggGo]
  | cons m ms ih =>
    intro cur
    simp only [aggGo]
    cases h : (m.role == cur.role) with
    | true =>
      rw [if_pos rfl]
      exact ih _
    | false =>
      rw [if_neg (by simp)]
      simp

lemma aggGo_last_role : ∀ (ms : List Message) (cur x : Message),
    (cur :: ms).getLast? = some x →
    ∃ y, (aggGo cur ms).getLast? = some y ∧ y.role = x.role := by
  intro ms
  induction ms with
  | nil =>
    intro cur x h
    simp only [List.getLast?_singleton] at h
    injection h with h
    exact ⟨cur, rfl, by rw [h]⟩
  | cons m ms ih =>
    intro cur x h
    rw [List.getLast?_cons_cons] at h
    simp only [aggGo]
    cases hr : (m.role == cur.role) with
    | true =>
      rw [if_pos rfl]
      have hr' : m.role = cur.role := by simpa using hr
      cases ms with
      | nil =>
        simp only [List.getLast?_singleton] at h
        injection h with h
        refine ⟨{ role := cur.role
                  content := cur.content ++ "\n\n" ++ m.content
                  name := cur.name }, rfl, ?_⟩
        show cur.role = x.role
        rw [← h]
        exact hr'.symm
      | cons m2 ms2 =>
        obtain ⟨y, hy, hyr⟩ := ih
          { role := cur.role, content := cur.content ++ "\n\n" ++ m.content
            name := cur.name } x (by
            rw [List.getLast?_cons_cons]
            exact h)
        exact ⟨y, hy, hyr⟩
    | false =>
      rw [if_neg (by simp)]
      obtain ⟨y, hy, hyr⟩ := ih m x h
      refine ⟨y, ?_, hyr⟩
      cases hgg : aggGo m ms with
      | nil => exact absurd hgg (aggGo_ne_nil ms m)
      | cons g gs =>
        rw [List.getLast?_cons_cons, ← hgg]
        exact hy

lemma aggregate_last_role (ms : List Message) (x : Message)
    (h : ms.getLast? = some x) :
    ∃ y, (aggregateMessages ms).getLast? = some y ∧ y.role = x.role := by
  cases ms with
  | nil => cases h
  | cons m rest => exact aggGo_last_role rest m x h

lemma aggGo_append_single : ∀ (ms : List Message) (cur m : Message),
    (∀ x, (cur :: ms).getLast? = some x → x.role ≠ m.role) →
    aggGo cur (ms ++ [m]) = aggGo cur ms ++ [m] := by
  intro ms
  induction ms with
  | nil =>
    intro cur m h
    have hcur : cur.role ≠ m.role := h cur rfl
    simp only [List.nil_append, aggGo]
    rw [if_neg (by simpa using fun he => hcur he.symm)]
    rfl
  | cons y ys ih =>
    intro cur m h
    simp only [List.cons_append, aggGo]
    cases hr : (y.role == cur.role) with
    | true =>
      rw [if_pos rfl, if_pos rfl]
      have hr' : y.role = cur.role := by simpa using hr
      refine ih _ m ?_
      intro x hx
      cases ys with
      | nil =>
        simp only [List.getLast?_singleton] at hx
        injection hx with hx
        have := h y (by rw [List.getLast?_cons_cons]; rfl)
        rw [← hx]
        show ({ role := cur.role
                content := cur.content ++ "\n\n" ++ y.content
                name := cur.name } : Message).role ≠ m.role
        rw [show ({ role := cur.role
                    content := cur.content ++ "\n\n" ++ y.content
                    name := cur.name } : Message).role = cur.role from rfl,
          ← hr']
        exact this
      | cons y2 ys2 =>
        refine h x ?_
        rw [List.getLast?_cons_cons] at hx ⊢
        rw [List.getLast?_cons_cons]
        exact hx
    | false =>
      rw [if_neg (by simp), if_neg (by simp)]
      rw [List.cons_append]
      congr 1
      refine ih y m ?_
      intro x hx
      refine h x ?_
      rw [List.getLast?_cons_cons]
      exact hx

lemma aggregate_append_single (ms : List Message) (m : Message)
    (h : ∀ x, ms.getLast? = some x → x.role ≠ m.role) :
    aggregateMessages (ms ++ [m]) = aggregateMessages ms ++ [m] := by
  cases ms with
  | nil => rfl
  | cons cur rest =>
    simp only [List.cons_append, aggregateMessages]
    exact aggGo_append_single rest cur m h

/-- C1 counterexample.  At stSameRole the snapshot at a1 holds the single
user message U; appending the user commit b1 and extending incrementally
yields two user messages [U, V], while a full compile at b1 aggregates
the two same-role messages into one ("U\n\nV"): the claimed equality of
message sequences (and with this counter, of token counts) fails. -/
theorem claim_C1_counterexample :
    ∃ ctxa snapb ctxb,
      compile [] stSameRole lenCounter "" "a1" none none false =
        some ctxa ∧
      extendForAppend [] stSameRole lenCounter "" "b1"
        (buildSnapshot "a1" ctxa) = some snapb ∧
      compile [] stSameRole lenCounter "" "b1" none none false =
        some ctxb ∧
      snapb.messages ≠ ctxb.messages ∧
      snapb.token_count ≠ ctxb.token_count := by
  refine ⟨_, _, _, rfl, rfl, rfl, by decide, by decide⟩

/-- C1 as amended.  Extension equals full recompile provided the appended
commit is fresh (its hash is unseen in the chain and no EDIT targets
it), its effective priority is not SKIP, and its message's role differs
from the role of the last message of the parent snapshot, so that the
aggregation step of the full compile does not merge across the append
boundary: then the extended snapshot and the full compile at the new
commit agree message by message and in total token count. -/
theorem claim_C1_amended_extend_for_append
    (ovr : List (String × String)) (st : Store)
    (counter : List Message → Nat) (ts : String) (chash hhash : String)
    (c : CommitRow) (ctxh : CompiledContext)
    (hrow : getCommit st chash = some c)
    (hop : c.operation = CommitOp.APPEND)
    (hchain : getAncestors st chash = c :: getAncestors st hhash)
    (hfresh : chash ∉ (getAncestors st hhash).map (·.commit_hash))
    (hnoedit : ∀ e ∈ getAncestors st hhash,
      ¬(e.operation = CommitOp.EDIT ∧ e.response_to = some chash))
    (hskip : effPriority st none c ≠ Priority.SKIP)
    (hcomp : compile ovr st counter ts hhash none none false = some ctxh)
    (hrole : ∀ m, ctxh.messages.getLast? = some m →
      m.role ≠ (buildMessageForCommit ovr st c).role) :
    ∃ snapc ctxc,
      extendForAppend ovr st counter ts chash
        (buildSnapshot hhash ctxh) = some snapc ∧
      compile ovr st counter ts chash none none false = some ctxc ∧
      snapc.messages = ctxc.messages ∧
      snapc.token_count = ctxc.token_count := by
  have hc_hash : c.commit_hash = chash := getCommit_hash_eq st chash c hrow
  -- the walked chain at the new commit is the old chain plus c
  have hwalkc : walkChain (getAncestors st chash) none none =
      (getAncestors st hhash).reverse ++ [c] := by
    rw [hchain]
    simp [walkChain]
  -- the edit map is unchanged by the appended commit
  have hem_c : buildEditMap ((getAncestors st hhash).reverse ++ [c]) none =
      buildEditMap ((getAncestors st hhash).reverse) none :=
    buildEditMap_append_nonedit _ c none hop
  -- the priority map gains one entry for the new hash
  have hpm_c : buildPriorityMap st
      ((getAncestors st hhash).reverse ++ [c]) none =
      aset (buildPriorityMap st ((getAncestors st hhash).reverse) none)
        chash (effPriority st none c) := by
    rw [buildPriorityMap_append, hc_hash]
  have hfresh' : ∀ x ∈ (getAncestors st hhash).reverse,
      x.commit_hash ≠ chash := by
    intro x hx he
    apply hfresh
    rw [← he]
    exact List.mem_map_of_mem _ (List.mem_reverse.mp hx)
  -- the effective list is the old effective list plus c
  have heff_c : effectiveCommits ((getAncestors st hhash).reverse ++ [c])
      (aset (buildPriorityMap st ((getAncestors st hhash).reverse) none)
        chash (effPriority st none c)) =
      effectiveCommits ((getAncestors st hhash).reverse)
        (buildPriorityMap st ((getAncestors st hhash).reverse) none)
        ++ [c] := by
    unfold effectiveCommits
    rw [List.filter_append]
    congr 1
    · apply List.filter_congr
      intro x hx
      rw [alookup_aset_ne _ _ _ _ (hfresh' x hx)]
    · have h1 : (c.operation == CommitOp.EDIT) = false := by simp [hop]
      have h2 : (alookup (aset
          (buildPriorityMap st ((getAncestors st hhash).reverse) none)
          chash (effPriority st none c)) c.commit_hash ==
            some Priority.SKIP) = false := by
        rw [hc_hash, alookup_aset_self]
        simpa using hskip
      simp [List.filter, h1, h2]
  -- no edit in the old chain targets the new hash
  have hemlookup : alookup
      (buildEditMap ((getAncestors st hhash).reverse) none) chash =
        none := by
    cases hlk : alookup
        (buildEditMap ((getAncestors st hhash).reverse) none) chash with
    | none => rfl
    | some e =>
      rcases editFold_lookup_shape none ((getAncestors st hhash).reverse)
        [] chash e hlk with hacc | ⟨hmem, hope, hrespe⟩
      · cases hacc
      · exact absurd ⟨hope, hrespe⟩
          (hnoedit e (List.mem_reverse.mp hmem))
  -- the message list is the old one plus c's message
  have hmsgs_c : buildMessages ovr st
      (buildEditMap ((getAncestors st hhash).reverse) none) false
      (effectiveCommits ((getAncestors st hhash).reverse)
        (buildPriorityMap st ((getAncestors st hhash).reverse) none)
        ++ [c]) =
      buildMessages ovr st
        (buildEditMap ((getAncestors st hhash).reverse) none) false
        (effectiveCommits ((getAncestors st hhash).reverse)
          (buildPriorityMap st ((getAncestors st hhash).reverse) none))
        ++ [buildMessageForCommit ovr st c] := by
    unfold buildMessages
    rw [List.map_append]
    congr 1
    simp only [List.map_cons, List.map_nil]
    unfold renderCommit
    rw [hc_hash, hemlookup]
    rfl
  -- the full compile at the new commit
  have hcompc : compile ovr st counter ts chash none none false =
      some { messages := aggregateMessages (buildMessages ovr st
               (buildEditMap ((getAncestors st hhash).reverse) none) false
               (effectiveCommits ((getAncestors st hhash).reverse)
                 (buildPriorityMap st ((getAncestors st hhash).reverse)
                   none)) ++ [buildMessageForCommit ovr st c])
             token_count := counter (aggregateMessages (buildMessages ovr
               st (buildEditMap ((getAncestors st hhash).reverse) none)
               false (effectiveCommits ((getAncestors st hhash).reverse)
                 (buildPriorityMap st ((getAncestors st hhash).reverse)
                   none)) ++ [buildMessageForCommit ovr st c]))
             commit_count := Int.ofNat (effectiveCommits
               ((getAncestors st hhash).reverse)
               (buildPriorityMap st ((getAncestors st hhash).reverse)
                 none) ++ [c]).length
             token_source := ts } := by
    simp only [compile, hwalkc, hem_c, hpm_c, heff_c, hmsgs_c,
      isEmpty_false_of_ne_nil
        (List.append_ne_nil_of_right_ne_nil _ (by simp) :
          (getAncestors st hhash).reverse ++ [c] ≠ [])]
    simp
  -- the messages of the cached context are the aggregated old messages
  have hMh : ctxh.messages = aggregateMessages (buildMessages ovr st
      (buildEditMap ((getAncestors st hhash).reverse) none) false
      (effectiveCommits ((getAncestors st hhash).reverse)
        (buildPriorityMap st ((getAncestors st hhash).reverse) none))) := by
    cases hANCnil : getAncestors st hhash with
    | nil =>
      have hch : compile ovr st counter ts hhash none none false =
          some { messages := [], token_count := 0, commit_count := 0
                 token_source := "" } := by
        simp [compile, walkChain, hANCnil]
      rw [hch] at hcomp
      injection hcomp with hcomp
      rw [← hcomp]
      rfl
    | cons a rest =>
      have hch : compile ovr st counter ts hhash none none false =
          some { messages := aggregateMessages (buildMessages ovr st
                   (buildEditMap ((a :: rest).reverse) none) false
                   (effectiveCommits ((a :: rest).reverse)
                     (buildPriorityMap st ((a :: rest).reverse) none)))
                 token_count := counter (aggregateMessages (buildMessages
                   ovr st (buildEditMap ((a :: rest).reverse) none) false
                   (effectiveCommits ((a :: rest).reverse)
                     (buildPriorityMap st ((a :: rest).reverse) none))))
                 commit_count := Int.ofNat (effectiveCommits
                   ((a :: rest).reverse)
                   (buildPriorityMap st ((a :: rest).reverse) none)).length
                 token_source := ts } := by
        simp only [compile, hANCnil, isEmpty_false_of_ne_nil
          (by simp : ((a :: rest) : List CommitRow).reverse ≠ [])]
        simp [walkChain]
      rw [hch] at hcomp
      injection hcomp with hcomp
      rw [← hcomp]
  -- roles do not merge across the boundary
  have hrolepre : ∀ x, (buildMessages ovr st
      (buildEditMap ((getAncestors st hhash).reverse) none) false
      (effectiveCommits ((getAncestors st hhash).reverse)
        (buildPriorityMap st ((getAncestors st hhash).reverse)
          none))).getLast? = some x →
      x.role ≠ (buildMessageForCommit ovr st c).role := by
    intro x hx
    obtain ⟨y, hy, hyr⟩ := aggregate_last_role _ x hx
    have := hrole y (by rw [hMh]; exact hy)
    rw [← hyr]
    exact this
  have hagg : aggregateMessages (buildMessages ovr st
      (buildEditMap ((getAncestors st hhash).reverse) none) false
      (effectiveCommits ((getAncestors st hhash).reverse)
        (buildPriorityMap st ((getAncestors st hhash).reverse) none))
      ++ [buildMessageForCommit ovr st c]) =
      aggregateMessages (buildMessages ovr st
        (buildEditMap ((getAncestors st hhash).reverse) none) false
        (effectiveCommits ((getAncestors st hhash).reverse)
          (buildPriorityMap st ((getAncestors st hhash).reverse) none)))
      ++ [buildMessageForCommit ovr st c] :=
    aggregate_append_single _ _ hrolepre
  -- the incremental extension
  have hext : extendForAppend ovr st counter ts chash
      (buildSnapshot hhash ctxh) =
      some { head_hash := chash
             messages := ctxh.messages ++ [buildMessageForCommit ovr st c]
             commit_count := ctxh.commit_count + 1
             token_count := counter (ctxh.messages
               ++ [buildMessageForCommit ovr st c])
             token_source := ts
             generation_configs := ctxh.generation_configs
               ++ [c.generation_config_json.getD []]
             commit_hashes := ctxh.commit_hashes ++ [chash] } := by
    simp only [extendForAppend, hrow]
    rfl
  refine ⟨_, _, hext, hcompc, ?_, ?_⟩
  · show ctxh.messages ++ [buildMessageForCommit ovr st c] = _
    rw [hagg, hMh]
  · show counter (ctxh.messages ++ [buildMessageForCommit ovr st c]) = _
    rw [hagg, hMh]

/-- Witness for the amended C1 at the concrete store stRoleSplit: the
appended dialogue commit c1 (role user) follows the instruction commit
a1 (role system), no aggregation happens at the boundary, and extension
equals full recompile. -/
theorem claim_C1_witness :
    compile [] stRoleSplit lenCounter "" "a1" none none false =
        some { messages := [{ role := "system", content := "S" }]
               token_count := 8, commit_count := 1, token_source := "" } ∧
      ∃ snapc ctxc,
        extendForAppend [] stRoleSplit lenCounter "" "c1"
          (buildSnapshot "a1"
            { messages := [{ role := "system", content := "S" }]
              token_count := 8, commit_count := 1, token_source := "" }) =
          some snapc ∧
        compile [] stRoleSplit lenCounter "" "c1" none none false =
          some ctxc ∧
        snapc.messages = ctxc.messages ∧
        snapc.token_count = ctxc.token_count := by
  refine ⟨by decide, ?_⟩
  refine claim_C1_amended_extend_for_append [] stRoleSplit lenCounter ""
    "c1" "a1"
    { commit_hash := "c1", parent_hash := some "a1", content_hash := "bH"
      content_type := "dialogue", operation := CommitOp.APPEND
      created_at := 2 }
    { messages := [{ role := "system", content := "S" }]
      token_count := 8, commit_count := 1, token_source := "" }
    (by decide) (by decide) (by decide) (by decide) (by decide)
    (by decide) (by decide) ?_
  intro m hm
  rw [List.getLast?_singleton] at hm
  injection hm with hm
  rw [← hm]
  decide
